import Mathlib

set_option maxHeartbeats 1000000

/-! Verification of the single-page site mirroring program (scrape.js).

The development embeds the path mapper, the reference rewriter and the
wave-based fetch loop of the program, and proves or refutes the claims of
the accompanying specification.  String manipulation primitives of the
host platform (regular-expression based replacement and splitting, the
posix path helpers, the URL parser) are modelled explicitly over lists of
characters. -/

namespace Scrape

/-- whitespace test: a model of the regular-expression class backslash-s
restricted to the ASCII range, as used by the srcset splitting code. -/
def isWs (c : Char) : Bool :=
  c == ' ' || c == '\t' || c == '\n' || c == '\r' || c.toNat == 11 || c.toNat == 12

/-- characters rejected by sanitizeFilename: the class in the source regex,
namely angle brackets, colon, double quote, slash, backslash, pipe,
question mark, star, and the control range x00-x1F. -/
def isFsHostile (c : Char) : Bool :=
  c == '<' || c == '>' || c == ':' || c == '"' || c == '/' || c == '\\' ||
  c == '|' || c == '?' || c == '*' || decide (c.toNat < 32)

/-- sanitizeFilename from the source: replace each hostile character by an
underscore, keep at most 200 characters, and fall back to "file" when the
result is empty. -/
def sanitizeFilename (name : String) : String :=
  let cleaned : String := ⟨(name.data.map fun c => if isFsHostile c then '_' else c).take 200⟩
  if cleaned = "" then "file" else cleaned

/-- test whether the second list occurs at the start of the first. -/
def startsWithSub : List Char → List Char → Bool
  | _, [] => true
  | [], _ :: _ => false
  | a :: as, b :: bs => a == b && startsWithSub as bs

/-- substring occurrence test over character lists. -/
def containsSubL : List Char → List Char → Bool
  | [], sub => sub.isEmpty
  | a :: as, sub => startsWithSub (a :: as) sub || containsSubL as sub

/-- model of the JavaScript String.includes test. -/
def containsSub (s sub : String) : Bool := containsSubL s.data sub.data

/-- splitting a character list at every occurrence of a separator
character; a model of the JavaScript String.split with a one-character
separator (an empty input yields one empty chunk). -/
def splitCharL (c : Char) : List Char → List (List Char)
  | [] => [[]]
  | a :: as =>
    if a == c then [] :: splitCharL c as
    else
      match splitCharL c as with
      | [] => [[a]]
      | h :: t => (a :: h) :: t

/-- lower-casing over the character list of a string; a model of the
JavaScript toLowerCase for the ASCII range. -/
def lowerStr (s : String) : String := ⟨s.data.map Char.toLower⟩

/-- the part of a path after its last slash, once trailing slashes are
removed; a model of path.basename of the posix flavour. -/
def pathBasename (p : String) : String :=
  let stripped := (p.data.reverse.dropWhile (fun c => c == '/')).reverse
  ⟨(stripped.reverse.takeWhile (fun c => c ≠ '/')).reverse⟩

/-- extension of the final path segment, a model of path.extname of the
posix flavour: the suffix from the last dot of the basename provided that
dot is not its first character, with the special case of the basename
consisting of exactly two dots. -/
def pathExtname (p : String) : String :=
  let b := (pathBasename p).data
  if b = ['.', '.'] then ""
  else
    let after := b.reverse.takeWhile (fun c => c ≠ '.')
    if after.length + 1 < b.length then ⟨'.' :: after.reverse⟩ else ""

/-- extFromUrlOrType from the source, over the pathname of the parsed URL:
prefer the lower-cased extension of the pathname; otherwise infer an
extension from the content type by substring tests, in the order html,
css, javascript, image (taking the subtype up to a semicolon, with jpeg
normalised to jpg), font. -/
def extFromUrlOrType (pathname contentType : String) : String :=
  let ext := lowerStr (pathExtname pathname)
  if ext ≠ "" then ext
  else if contentType = "" then ""
  else if containsSub contentType "text/html" then ".html"
  else if containsSub contentType "text/css" then ".css"
  else if containsSub contentType "javascript" then ".js"
  else if containsSub contentType "image/" then
    let sub : String := ⟨((splitCharL '/' contentType.data).getD 1 []).takeWhile (fun c => c ≠ ';')⟩
    "." ++ (if sub = "jpeg" then "jpg" else sub.data.asString)
  else if containsSub contentType "font/" then ".woff2"
  else ""

/-- chooseSubdirByExt from the source: route an extension to one of the
output subfolders. -/
def chooseSubdirByExt (ext : String) : String :=
  if ext = ".css" then "css"
  else if ext = ".js" then "js"
  else if ext ∈ [".png", ".jpg", ".jpeg", ".gif", ".webp", ".svg", ".avif"] then "img"
  else if ext ∈ [".woff", ".woff2", ".ttf", ".otf", ".eot"] then "fonts"
  else if ext = ".html" ∨ ext = "" then ""
  else "assets"

/-- joining of two path pieces, a model of path.join restricted to two
arguments that carry no empty inner segments: an empty side is dropped,
otherwise the pieces are joined with a slash. -/
def pjoin (a b : String) : String :=
  if a = "" then b else if b = "" then a else a ++ "/" ++ b

/-- localPathFor from the source, with the URL replaced by the pathname
its parse yields: derive the extension, route the subfolder, sanitize the
basename (defaulting to index), append the derived extension when the
pathname itself carries none, and join host token, subfolder and name. -/
def localPathFor (originHost pathname contentType : String) : String :=
  let ext := extFromUrlOrType pathname contentType
  let subdir := chooseSubdirByExt ext
  let nameGuess :=
    sanitizeFilename (if pathBasename pathname = "" then "index" else pathBasename pathname)
      ++ (if ext ≠ "" ∧ pathExtname pathname = "" then ext else "")
  let dir := if subdir ≠ "" then pjoin originHost subdir else originHost
  pjoin dir (if nameGuess ≠ "" then nameGuess else "index" ++ (if ext ≠ "" then ext else ".html"))

/-- inference table of the specification, following its words: text/html
to .html, text/css to .css, any javascript substring to .js, image
subtypes to themselves with jpeg normalised to jpg, fonts to .woff2, else
empty. -/
def specInferExt (contentType : String) : String :=
  if containsSub contentType "text/html" then ".html"
  else if containsSub contentType "text/css" then ".css"
  else if containsSub contentType "javascript" then ".js"
  else if containsSub contentType "image/" then
    let sub : String := ⟨((splitCharL '/' contentType.data).getD 1 []).takeWhile (fun c => c ≠ ';')⟩
    "." ++ (if sub = "jpeg" then "jpg" else sub.data.asString)
  else if containsSub contentType "font/" then ".woff2"
  else ""

/-- subdirectory routing table of the specification, following its words. -/
def specSubdir (ext : String) : String :=
  if ext = ".css" then "css"
  else if ext = ".js" then "js"
  else if ext ∈ [".png", ".jpg", ".jpeg", ".gif", ".webp", ".svg", ".avif"] then "img"
  else if ext ∈ [".woff", ".woff2", ".ttf", ".otf", ".eot"] then "fonts"
  else if ext = ".html" ∨ ext = "" then ""
  else "assets"

/-- filename sanitisation of the specification: replace filesystem-hostile
characters by underscores and truncate to 200 characters. -/
def specSanitize (name : String) : String :=
  ⟨(name.data.map fun c => if isFsHostile c then '_' else c).take 200⟩

/-- deriveLocalPath as the specification words it: the extension is the
extension present in the URL path when there is one, else inferred from
the content type; the subdirectory is routed by extension; the filename is
the sanitised last path segment, defaulting to index when empty, with the
derived extension appended when the URL path carries none; the result is
originHostToken/[subdirectory/]filename. -/
def deriveLocalPathSpec (originHostToken pathname contentType : String) : String :=
  let urlExt := pathExtname pathname
  let ext := if urlExt ≠ "" then urlExt else specInferExt contentType
  let subdir := specSubdir ext
  let base := specSanitize (pathBasename pathname)
  let fname := (if base = "" then "index" else base)
      ++ (if pathExtname pathname = "" ∧ ext ≠ "" then ext else "")
  originHostToken ++ "/" ++ (if subdir ≠ "" then subdir ++ "/" else "") ++ fname

/-- deriveLocalPathSpec amended in one point: the extension taken from the
URL path is lower-cased first, as the source does. -/
def deriveLocalPathSpecFixed (originHostToken pathname contentType : String) : String :=
  let urlExt := pathExtname pathname
  let ext := if urlExt ≠ "" then lowerStr urlExt else specInferExt contentType
  let subdir := specSubdir ext
  let base := specSanitize (pathBasename pathname)
  let fname := (if base = "" then "index" else base)
      ++ (if pathExtname pathname = "" ∧ ext ≠ "" then ext else "")
  originHostToken ++ "/" ++ (if subdir ≠ "" then subdir ++ "/" else "") ++ fname

lemma str_data_eq {a b : String} (h : a.data = b.data) : a = b := String.ext h

lemma str_data_append (a b : String) : (a ++ b).data = a.data ++ b.data := by
  cases a; cases b; rfl

lemma str_empty_append (s : String) : "" ++ s = s := by
  apply str_data_eq; rw [str_data_append]; rfl

lemma str_append_ne_empty_left {a : String} (b : String) (h : a ≠ "") : a ++ b ≠ "" := by
  intro hc
  apply h
  apply str_data_eq
  have := congrArg String.data hc
  rw [str_data_append] at this
  exact List.append_eq_nil.mp this |>.1

lemma str_append_assoc (a b c : String) : a ++ b ++ c = a ++ (b ++ c) := by
  apply str_data_eq
  simp [str_data_append]

lemma lowerStr_eq_empty_iff (s : String) : lowerStr s = "" ↔ s = "" := by
  constructor
  · intro h
    apply str_data_eq
    have := congrArg String.data h
    simpa [lowerStr] using this
  · intro h; subst h; rfl

lemma specSanitize_eq_empty_iff (s : String) : specSanitize s = "" ↔ s = "" := by
  constructor
  · intro h
    apply str_data_eq
    have := congrArg String.data h
    simp only [specSanitize] at this
    rcases List.take_eq_nil_iff.mp this with h2 | h2
    · exact absurd h2 (by decide)
    · simpa using h2
  · intro h; subst h; rfl

lemma sanitizeFilename_eq (s : String) :
    sanitizeFilename s = if specSanitize s = "" then "file" else specSanitize s := rfl

lemma sanitize_default_eq (b : String) :
    sanitizeFilename (if b = "" then "index" else b)
      = (if specSanitize b = "" then "index" else specSanitize b) := by
  by_cases hb : b = ""
  · subst hb
    simp [sanitizeFilename_eq]
    decide
  · rw [if_neg hb, sanitizeFilename_eq]
    have h2 : specSanitize b ≠ "" := fun hc => hb ((specSanitize_eq_empty_iff b).mp hc)
    rw [if_neg h2, if_neg h2]

lemma extFromUrlOrType_eq (pathname contentType : String) :
    extFromUrlOrType pathname contentType
      = (if pathExtname pathname ≠ "" then lowerStr (pathExtname pathname)
         else specInferExt contentType) := by
  by_cases hpe : pathExtname pathname = ""
  · have h0 : lowerStr (pathExtname pathname) = "" := by rw [hpe]; rfl
    rw [if_neg (fun h => h hpe)]
    simp only [extFromUrlOrType, h0]
    rw [if_neg (by simp)]
    by_cases hct : contentType = ""
    · subst hct; decide
    · rw [if_neg hct]
      simp only [specInferExt]
  · have h0 : lowerStr (pathExtname pathname) ≠ "" :=
      fun hc => hpe ((lowerStr_eq_empty_iff _).mp hc)
    rw [if_pos hpe]
    simp only [extFromUrlOrType]
    rw [if_pos h0]

lemma pjoin_ne (a b : String) (ha : a ≠ "") (hb : b ≠ "") : pjoin a b = a ++ "/" ++ b := by
  simp [pjoin, ha, hb]

lemma assemble_eq (tok S NX Z : String) (htok : tok ≠ "") (hNX : NX ≠ "") :
    pjoin (if S ≠ "" then pjoin tok S else tok) (if NX ≠ "" then NX else Z)
      = tok ++ "/" ++ (if S ≠ "" then S ++ "/" else "") ++ NX := by
  rw [if_pos hNX]
  by_cases hS : S = ""
  · rw [if_neg (fun h => h hS), if_neg (fun h => h hS)]
    rw [pjoin_ne tok NX htok hNX]
    apply str_data_eq
    simp [str_data_append]
  · rw [if_pos hS, if_pos hS]
    rw [pjoin_ne tok S htok hS]
    rw [pjoin_ne _ NX (str_append_ne_empty_left S (str_append_ne_empty_left "/" htok)) hNX]
    apply str_data_eq
    simp [str_data_append]

/-- C7 (counterexample): the specified reference definition, read
literally, keeps the upper-case extension of a URL path such as /A.PNG and
therefore routes the file to the assets subfolder, while the source
lower-cases the extension first and routes it to the img subfolder, so the
two definitions differ at this input. -/
theorem C7_counterexample :
    localPathFor "host" "/A.PNG" "" = "host/img/A.PNG" ∧
    deriveLocalPathSpec "host" "/A.PNG" "" = "host/assets/A.PNG" ∧
    localPathFor "host" "/A.PNG" "" ≠ deriveLocalPathSpec "host" "/A.PNG" "" := by
  refine ⟨by decide, by decide, by decide⟩

/-- C7 (amended): localPathFor equals the specified reference definition
for every host token and every parsed URL pathname and content type, once
the reference definition is amended to lower-case the extension taken from
the URL path before routing, exactly as the source does. -/
theorem C7_localPathFor_matches_spec :
    ∀ (originHostToken pathname contentType : String),
      originHostToken ≠ "" →
      localPathFor originHostToken pathname contentType
        = deriveLocalPathSpecFixed originHostToken pathname contentType := by
  intro tok p ct htok
  have hspecsub : specSubdir = chooseSubdirByExt := rfl
  have hN : (if specSanitize (pathBasename p) = "" then "index"
      else specSanitize (pathBasename p)) ≠ "" := by
    by_cases h : specSanitize (pathBasename p) = ""
    · simp only [h, if_pos]
      decide
    · simp only [if_neg h]
      exact h
  by_cases hpe : pathExtname p = ""
  · simp only [localPathFor, deriveLocalPathSpecFixed, extFromUrlOrType_eq, hspecsub,
      sanitize_default_eq, hpe, ne_eq, not_true_eq_false, if_false, and_true, true_and,
      not_false_eq_true, if_true]
    exact assemble_eq tok _ _ _ htok (str_append_ne_empty_left _ hN)
  · simp only [localPathFor, deriveLocalPathSpecFixed, extFromUrlOrType_eq, hspecsub,
      sanitize_default_eq, hpe, ne_eq, not_false_eq_true, if_true, and_false, false_and,
      if_false]
    exact assemble_eq tok _ _ _ htok (str_append_ne_empty_left _ hN)

/-- C7 (witness): the amended equality applied at a concrete input. -/
theorem C7_witness :
    localPathFor "host" "/a.css" "" = deriveLocalPathSpecFixed "host" "/a.css" "" :=
  C7_localPathFor_matches_spec "host" "/a.css" "" (by decide)

/-- trimming of whitespace at both ends of a character list. -/
def trimL (l : List Char) : List Char :=
  ((l.dropWhile isWs).reverse.dropWhile isWs).reverse

/-- model of the JavaScript String.trim. -/
def jsTrim (s : String) : String := ⟨trimL s.data⟩

/-- model of the JavaScript String.split on a comma. -/
def splitCommaStr (s : String) : List String :=
  (splitCharL ',' s.data).map fun l => ⟨l⟩

/-- the candidate entries of a srcset value as the source computes them:
split on commas, trim each entry, drop empty entries. -/
def trimPieces (s : String) : List String :=
  ((splitCommaStr s).map jsTrim).filter (fun e => e ≠ "")

/-- maximal runs of non-whitespace characters of a list, in order. -/
def wsSplitAux : List Char → List Char → List (List Char)
  | [], acc => if acc.isEmpty then [] else [acc.reverse]
  | c :: rest, acc =>
    if isWs c then
      if acc.isEmpty then wsSplitAux rest []
      else acc.reverse :: wsSplitAux rest []
    else wsSplitAux rest (c :: acc)

/-- model of the JavaScript split on the whitespace-run regex for inputs
without leading whitespace, as produced by trimming: the list of maximal
non-whitespace runs. -/
def wsTokens (s : String) : List String := (wsSplitAux s.data []).map fun l => ⟨l⟩

/-- first-match lookup in an association list, a model of Map.get for a
map built by insert-once writes. -/
def lookupStr : List (String × String) → String → Option String
  | [], _ => none
  | (k, v) :: t, u => if k = u then some v else lookupStr t u

/-- model of the JavaScript Array.join with the separator comma-space. -/
def joinCommaSpace : List String → String
  | [] => ""
  | [x] => x
  | x :: y :: xs => x ++ ", " ++ joinCommaSpace (y :: xs)

/-- rewriting of one srcset candidate entry from the source: take the
first whitespace token as the URL part and the second as the descriptor,
resolve the URL part against the start URL, and when the resolved URL has
a non-empty entry in the map, replace the URL part by that entry verbatim,
keeping the descriptor; when resolution fails the entry stays whole. -/
def rewriteSrcsetEntry (resolve : String → Option String) (m : List (String × String))
    (entry : String) : String :=
  let toks := wsTokens entry
  let uPart := toks.headD ""
  let desc := (toks.get? 1).getD ""
  match resolve uPart with
  | none => entry
  | some abs =>
    (match lookupStr m abs with
     | some loc => if loc = "" then uPart else loc
     | none => uPart)
    ++ (if desc = "" then "" else " " ++ desc)

/-- the srcset branch of the final rewrite loop: split into trimmed
non-empty candidates, rewrite each, and join with comma-space. -/
def rewriteSrcset (resolve : String → Option String) (m : List (String × String))
    (val : String) : String :=
  joinCommaSpace ((trimPieces val).map (rewriteSrcsetEntry resolve m))

/-- segments of a path, slashes dropped. -/
def pathSegs (s : String) : List (List Char) :=
  (splitCharL '/' s.data).filter (fun l => l ≠ [])

/-- removal of the longest common prefix of two segment lists. -/
def dropCommonAux : List (List Char) → List (List Char) → List (List Char) × List (List Char)
  | a :: as, b :: bs => if a = b then dropCommonAux as bs else (a :: as, b :: bs)
  | as, bs => (as, bs)

/-- joining of segments with slashes. -/
def intercalateSlash : List (List Char) → List Char
  | [] => []
  | [x] => x
  | x :: y :: xs => x ++ '/' :: intercalateSlash (y :: xs)

/-- model of path.posix.relative for relative inputs without dot segments:
drop the common leading segments, replace what remains of the source by
dot-dot segments, and append the remaining target segments. -/
def posixRelative (fr tgt : String) : String :=
  let p := dropCommonAux (pathSegs fr) (pathSegs tgt)
  ⟨intercalateSlash ((p.1.map fun _ => ['.', '.']) ++ p.2)⟩

/-- the plain-attribute branch of the final rewrite loop: resolve the
value against the start URL; when the resolved URL has a non-empty entry
in the map, replace the value by dot-slash followed by the entry made
relative to the host folder; otherwise leave the value unchanged. -/
def rewriteAttrPlain (resolve : String → Option String) (m : List (String × String))
    (hostTok val : String) : String :=
  match resolve val with
  | none => val
  | some abs =>
    match lookupStr m abs with
    | some loc => if loc = "" then val else "./" ++ posixRelative hostTok loc
    | none => val

/-- the kind of a reference-holding attribute: srcset is split into
candidates, every other collected attribute is plain. -/
inductive AttrKind where
  | plain : AttrKind
  | srcset : AttrKind
deriving DecidableEq

/-- one reference-holding attribute of the parsed document, as selected by
the fixed selector-attribute table of the source. -/
structure RefAttr where
  kind : AttrKind
  val : String
deriving DecidableEq

/-- the final rewrite loop applied to one attribute: empty values are
skipped, srcset values go through the candidate rewrite, plain values
through the single-URL rewrite. -/
def rewriteAttr (resolve : String → Option String) (m : List (String × String))
    (tok : String) (a : RefAttr) : RefAttr :=
  if a.val = "" then a
  else
    match a.kind with
    | AttrKind.srcset => ⟨AttrKind.srcset, rewriteSrcset resolve m a.val⟩
    | AttrKind.plain => ⟨AttrKind.plain, rewriteAttrPlain resolve m tok a.val⟩

/-- the final rewrite pass over the whole document. -/
def rewriteDoc (resolve : String → Option String) (m : List (String × String))
    (tok : String) (doc : List RefAttr) : List RefAttr :=
  doc.map (rewriteAttr resolve m tok)

/-- collectAndRewriteHtml from the source, per attribute, with the
same-origin flag set as the caller sets it: srcset values contribute the
URL part of every candidate, plain values their single URL, each resolved
against the start URL and kept only when it resolves and its origin equals
the origin of the seed. -/
def collectFromAttr (resolve : String → Option String) (originOf : String → Option String)
    (origin : String) (a : RefAttr) : List String :=
  if a.val = "" then []
  else
    match a.kind with
    | AttrKind.srcset =>
      ((trimPieces a.val).map fun e => (wsTokens e).headD "").filterMap fun href =>
        match resolve href with
        | some u => if originOf u = some origin then some u else none
        | none => none
    | AttrKind.plain =>
      match resolve a.val with
      | some u => if originOf u = some origin then [u] else []
      | none => []

/-- the asset list collected from the whole seed document. -/
def collectDoc (resolve : String → Option String) (originOf : String → Option String)
    (origin : String) (doc : List RefAttr) : List String :=
  (doc.map (collectFromAttr resolve originOf origin)).flatten

/-- replacement of every backslash by a slash, as the source applies to
the stored local path. -/
def replaceBackslash (s : String) : String :=
  ⟨s.data.map fun c => if c = '\\' then '/' else c⟩

/-- the rest of a character list after the first scheme separator. -/
def afterScheme : List Char → Option (List Char)
  | ':' :: '/' :: '/' :: rest => some rest
  | _ :: rest => afterScheme rest
  | [] => none

/-- model of the platform URL parser pathname for standard absolute URLs
of the shape scheme://authority/path, without percent or dot-segment
normalisation: the part between the authority and any query or fragment,
defaulting to a single slash. -/
def urlPathname (u : String) : String :=
  match afterScheme u.data with
  | none => "/"
  | some rest =>
    let afterAuth := rest.dropWhile (fun c => c ≠ '/' && c ≠ '?' && c ≠ '#')
    match afterAuth with
    | '/' :: _ => ⟨afterAuth.takeWhile (fun c => c ≠ '?' && c ≠ '#')⟩
    | _ => "/"

/-- the value stored in the resolved map for a fetched URL.  The source
computes path.relative of the output base against path.join of the output
base with the localPathFor result, which cancels to the localPathFor
result itself (a normalised relative path), and then replaces backslashes
by slashes. -/
def mapValue (hostTok u contentType : String) : String :=
  replaceBackslash (localPathFor hostTok (urlPathname u) contentType)

/-- the external world of one run: fetch yields, per URL, none for a
failure (non-2xx status or transport error) or the content type paired
with the same-origin-unfiltered URL list that extractUrlsFromCss yields on
the body when the body is read as a style sheet. -/
structure Site where
  fetch : String → Option (String × List String)

/-- the mutable state of the fetch phase: the pending set in insertion
order, the resolved map in insertion order, the list of URLs handed to the
fetch primitive in order, and the list of local paths written to disk. -/
structure CrawlState where
  toDownload : List String
  resolved : List (String × String)
  fetchLog : List String
  saved : List String
deriving DecidableEq

/-- insertion into the pending set: a no-op for a member, an append
otherwise, as Set.add behaves. -/
def addUrl (l : List String) (u : String) : List String :=
  if u ∈ l then l else l ++ [u]

/-- insertion of many URLs in order. -/
def addUrls (l : List String) (us : List String) : List String :=
  us.foldl addUrl l

/-- the content-type test the source uses to recognise a style sheet. -/
def isCss (ct : String) : Bool := containsSub ct "text/css"

/-- the same-origin filter applied to URLs discovered inside a fetched
style sheet: keep a URL when it parses and its origin is the seed origin. -/
def sameOriginFilter (originOf : String → Option String) (origin : String)
    (us : List String) : List String :=
  us.filter fun nu => decide (originOf nu = some origin)

/-- downloadOne from the source: skip a URL already resolved; otherwise
attempt the fetch; on failure only record the attempt; on success save the
bytes, record the URL-to-local-path entry, and when the content type marks
a style sheet, add its same-origin discovered URLs to the pending set. -/
def downloadOne (site : Site) (originOf : String → Option String) (origin hostTok : String)
    (st : CrawlState) (u : String) : CrawlState :=
  if (lookupStr st.resolved u).isSome then st
  else
    match site.fetch u with
    | none => { st with fetchLog := st.fetchLog ++ [u] }
    | some (ct, links) =>
      let lp := mapValue hostTok u ct
      let st1 : CrawlState :=
        { toDownload := st.toDownload
          resolved := st.resolved ++ [(u, lp)]
          fetchLog := st.fetchLog ++ [u]
          saved := st.saved ++ [lp] }
      if isCss ct then
        { st1 with toDownload := addUrls st1.toDownload (sameOriginFilter originOf origin links) }
      else st1

/-- one wave: the pending set is snapshot at dispatch time and every URL
of the snapshot goes through downloadOne.  The bounded pool admits each
distinct pending URL once per wave, so the wave is modelled as a
sequential fold over the snapshot. -/
def wave (site : Site) (originOf : String → Option String) (origin hostTok : String)
    (st : CrawlState) : CrawlState :=
  st.toDownload.foldl (downloadOne site originOf origin hostTok) st

/-- the fixpoint loop of the source: repeat waves while the pending count
differs from the count recorded before the previous wave, starting from a
recorded count of zero.  The fuel argument bounds the number of
iterations; the termination theorem gives a fuel past which the result no
longer changes. -/
def crawlLoop (site : Site) (originOf : String → Option String) (origin hostTok : String) :
    Nat → Nat → CrawlState → CrawlState
  | 0, _, st => st
  | fuel + 1, prev, st =>
    if st.toDownload.length = prev then st
    else
      crawlLoop site originOf origin hostTok fuel st.toDownload.length
        (wave site originOf origin hostTok st)

/-- the state before any fetch: the pending set holds the deduplicated
seed assets, the map, log and disk are empty. -/
def initState (assets : List String) : CrawlState :=
  ⟨addUrls [] assets, [], [], []⟩

/-- the fetch phase of run(): the first dispatch of all seed assets,
followed by the fixpoint loop. -/
def runCrawl (site : Site) (originOf : String → Option String) (origin hostTok : String)
    (assets : List String) (fuel : Nat) : CrawlState :=
  crawlLoop site originOf origin hostTok fuel 0
    (wave site originOf origin hostTok (initState assets))

/-- the URL oracle of one run: resolve models the platform URL resolution
of an attribute value against the fixed start URL, rendered as a string;
originOf models parsing a URL string and reading its origin, none when the
parse fails. -/
structure UrlModel where
  resolve : String → Option String
  originOf : String → Option String

/-- sanitisation of the seed hostname into the output folder token: every
dot and colon becomes an underscore. -/
def hostTokenOf (hostname : String) : String :=
  ⟨hostname.data.map fun c => if c = '.' ∨ c = ':' then '_' else c⟩

/-- the observable outcome of a completed run: the final crawl state, the
rewritten document, the path of the saved index.html, and the reported
asset count. -/
structure RunOutcome where
  state : CrawlState
  outDoc : List RefAttr
  htmlPath : String
  resolvedCount : Nat
deriving DecidableEq

/-- run() from the source: the origin and hostname of the start URL are
the platform parse results, passed in directly.  A seed fetch failure
throws; otherwise the seed document is scanned for same-origin assets, the
fetch phase runs to its fixpoint, the document is rewritten against the
final map, and index.html is saved under the downloaded/hostToken folder
next to the script. -/
def runFull (site : Site) (um : UrlModel) (startUrl origin hostname scriptDir : String)
    (doc : List RefAttr) (fuel : Nat) : Except String RunOutcome :=
  let tok := hostTokenOf hostname
  match site.fetch startUrl with
  | none => Except.error "seed fetch failed"
  | some _ =>
    let assets := collectDoc um.resolve um.originOf origin doc
    let st := runCrawl site um.originOf origin tok assets fuel
    Except.ok
      { state := st
        outDoc := rewriteDoc um.resolve st.resolved tok doc
        htmlPath := pjoin (pjoin (pjoin scriptDir "downloaded") tok) "index.html"
        resolvedCount := st.resolved.length }

/-- the process exit of the top-level handler: a thrown error is reported
and the process exits 1, a completed run exits 0. -/
def mainExit (r : Except String RunOutcome) : Nat :=
  match r with
  | Except.error _ => 1
  | Except.ok _ => 0

/-- a srcset URL part or descriptor token in canonical form: non-empty,
with no whitespace and no comma. -/
def NoWsComma (s : String) : Prop :=
  s ≠ "" ∧ ∀ c ∈ s.data, isWs c = false ∧ c ≠ ','

instance (s : String) : Decidable (NoWsComma s) := by
  unfold NoWsComma; infer_instance

lemma str_mk_data (s : String) : (⟨s.data⟩ : String) = s := rfl

lemma str_mk_ne_empty {l : List Char} (h : l ≠ []) : (⟨l⟩ : String) ≠ "" := by
  intro hc
  exact h (congrArg String.data hc)

lemma str_ne_empty_data {s : String} (h : s ≠ "") : s.data ≠ [] := by
  intro hc
  exact h (str_data_eq hc)

lemma head?_append_left {α : Type} (a b : List α) (h : a ≠ []) :
    (a ++ b).head? = a.head? := by
  cases a with
  | nil => exact absurd rfl h
  | cons x t => rfl

lemma getLast?_append_right {α : Type} (a b : List α) (h : b ≠ []) :
    (a ++ b).getLast? = b.getLast? := by
  rw [← List.head?_reverse, ← List.head?_reverse, List.reverse_append]
  exact head?_append_left _ _ (by simpa using h)

lemma trimL_eq_self (l : List Char)
    (h1 : ∀ c, l.head? = some c → isWs c = false)
    (h2 : ∀ c, l.getLast? = some c → isWs c = false) : trimL l = l := by
  unfold trimL
  have e1 : l.dropWhile isWs = l := by
    cases l with
    | nil => rfl
    | cons a t => rw [List.dropWhile_cons, h1 a rfl]; simp
  rw [e1]
  have e2 : l.reverse.dropWhile isWs = l.reverse := by
    cases hr : l.reverse with
    | nil => rfl
    | cons a t =>
      have : l.getLast? = some a := by
        rw [← List.head?_reverse, hr]; rfl
      rw [List.dropWhile_cons, h2 a this]; simp
  rw [e2, List.reverse_reverse]

lemma trimL_cons_ws (c : Char) (l : List Char) (h : isWs c = true) :
    trimL (c :: l) = trimL l := by
  unfold trimL
  rw [List.dropWhile_cons, h]
  simp

lemma splitCharL_nil (c : Char) : splitCharL c [] = [[]] := rfl

lemma splitCharL_cons_sep (c : Char) (l : List Char) :
    splitCharL c (c :: l) = [] :: splitCharL c l := by
  conv_lhs => unfold splitCharL
  simp

lemma splitCharL_ne_nil (c : Char) (l : List Char) : splitCharL c l ≠ [] := by
  induction l with
  | nil => simp [splitCharL]
  | cons a t ih =>
    unfold splitCharL
    by_cases h : (a == c) = true
    · simp [h]
    · simp only [h, if_false]
      cases hs : splitCharL c t with
      | nil => simp
      | cons x xs => simp

lemma splitCharL_cons_ne (c a : Char) (l hd : List Char) (tl : List (List Char))
    (h : ¬ a = c) (hs : splitCharL c l = hd :: tl) :
    splitCharL c (a :: l) = (a :: hd) :: tl := by
  have h2 : ¬ (a == c) = true := by simpa using h
  conv_lhs => unfold splitCharL
  rw [if_neg h2, hs]

lemma splitCharL_no_sep (c : Char) (l : List Char) (h : c ∉ l) :
    splitCharL c l = [l] := by
  induction l with
  | nil => rfl
  | cons a t ih =>
    have ha : ¬ a = c := fun hc => h (hc ▸ List.mem_cons_self a t)
    have ht : c ∉ t := fun hc => h (List.mem_cons_of_mem a hc)
    exact splitCharL_cons_ne c a t t [] ha (ih ht)

lemma splitCharL_sep (c : Char) (a b : List Char) (h : c ∉ a) :
    splitCharL c (a ++ c :: b) = a :: splitCharL c b := by
  induction a with
  | nil =>
    simp only [List.nil_append]
    exact splitCharL_cons_sep c b
  | cons x t ih =>
    have hx : ¬ x = c := fun hc => h (hc ▸ List.mem_cons_self x t)
    have ht : c ∉ t := fun hc => h (List.mem_cons_of_mem x hc)
    simp only [List.cons_append]
    exact splitCharL_cons_ne c x (t ++ c :: b) t (splitCharL c b) hx (ih ht)

lemma wsSplitAux_nil (acc : List Char) :
    wsSplitAux [] acc = if acc.isEmpty then [] else [acc.reverse] := rfl

lemma wsSplitAux_cons (c : Char) (rest acc : List Char) :
    wsSplitAux (c :: rest) acc =
      if isWs c then
        (if acc.isEmpty then wsSplitAux rest [] else acc.reverse :: wsSplitAux rest [])
      else wsSplitAux rest (c :: acc) := rfl

lemma wsSplitAux_no_ws (u rest : List Char) (acc : List Char)
    (hu : ∀ c ∈ u, isWs c = false) :
    wsSplitAux (u ++ rest) acc = wsSplitAux rest (u.reverse ++ acc) := by
  induction u generalizing acc with
  | nil => simp
  | cons c t ih =>
    have hc : isWs c = false := hu c (List.mem_cons_self c t)
    have ht : ∀ x ∈ t, isWs x = false := fun x hx => hu x (List.mem_cons_of_mem c hx)
    simp only [List.cons_append]
    rw [wsSplitAux_cons, hc]
    simp only [Bool.false_eq_true, if_false]
    rw [ih _ ht]
    simp

lemma wsTokens_token (u : String) (hu : NoWsComma u) : wsTokens u = [u] := by
  unfold wsTokens
  have h0 : u.data = u.data ++ [] := by simp
  rw [h0, wsSplitAux_no_ws u.data [] [] (fun c hc => (hu.2 c hc).1)]
  rw [wsSplitAux_nil]
  have hne : (u.data.reverse ++ ([] : List Char)).isEmpty = false := by
    simp [List.isEmpty_iff, str_ne_empty_data hu.1]
  rw [hne]
  simp [str_mk_data]

lemma wsTokens_pair (u d : String) (hu : NoWsComma u) (hd : NoWsComma d) :
    wsTokens (u ++ " " ++ d) = [u, d] := by
  unfold wsTokens
  have hdd : (u ++ " " ++ d).data = u.data ++ (' ' :: d.data) := by
    rw [str_data_append, str_data_append, List.append_assoc]
    rfl
  rw [hdd, wsSplitAux_no_ws u.data (' ' :: d.data) [] (fun c hc => (hu.2 c hc).1)]
  rw [wsSplitAux_cons]
  have hws : isWs ' ' = true := rfl
  have hne : (u.data.reverse ++ ([] : List Char)).isEmpty = false := by
    simp [List.isEmpty_iff, str_ne_empty_data hu.1]
  rw [hws]
  simp only [if_true, hne, Bool.false_eq_true, if_false]
  have h0 : d.data = d.data ++ [] := by simp
  rw [h0, wsSplitAux_no_ws d.data [] [] (fun c hc => (hd.2 c hc).1)]
  rw [wsSplitAux_nil]
  have hne2 : (d.data.reverse ++ ([] : List Char)).isEmpty = false := by
    simp [List.isEmpty_iff, str_ne_empty_data hd.1]
  rw [hne2]
  simp [str_mk_data]

lemma joinCommaSpace_cons2 (p q : String) (ps : List String) :
    joinCommaSpace (p :: q :: ps) = p ++ ", " ++ joinCommaSpace (q :: ps) := rfl

lemma joinCommaSpace_single (p : String) : joinCommaSpace [p] = p := rfl

lemma splitCharL_joinCS (ps : List String) (p : String)
    (hp : ',' ∉ p.data) (hps : ∀ q ∈ ps, ',' ∉ q.data) :
    splitCharL ',' (joinCommaSpace (p :: ps)).data
      = p.data :: ps.map (fun q => ' ' :: q.data) := by
  induction ps generalizing p with
  | nil => simp [joinCommaSpace, splitCharL_no_sep ',' p.data hp]
  | cons q qs ih =>
    have hj : (joinCommaSpace (p :: q :: qs)).data
        = p.data ++ ',' :: ' ' :: (joinCommaSpace (q :: qs)).data := by
      rw [joinCommaSpace_cons2, str_data_append, str_data_append, List.append_assoc]
      rfl
    rw [hj, splitCharL_sep ',' p.data _ hp]
    have hrec := ih q (hps q (List.mem_cons_self q qs))
      (fun r hr => hps r (List.mem_cons_of_mem q hr))
    have hstep : splitCharL ',' (' ' :: (joinCommaSpace (q :: qs)).data)
        = (' ' :: q.data) :: qs.map (fun r => ' ' :: r.data) :=
      splitCharL_cons_ne ',' ' ' _ q.data _ (by decide) hrec
    rw [hstep]
    simp

lemma trimPieces_eq (s : String) :
    trimPieces s
      = ((splitCharL ',' s.data).map (fun l => (⟨trimL l⟩ : String))).filter
          (fun e => e ≠ "") := by
  unfold trimPieces splitCommaStr
  rw [List.map_map]
  rfl

/-- round trip of the srcset serialisation: splitting a comma-space join
of non-empty, comma-free, trim-invariant entries recovers the entries. -/
lemma trimPieces_joinCS (ps : List String) (hne : ps ≠ [])
    (h : ∀ p ∈ ps, p ≠ "" ∧ ',' ∉ p.data ∧ trimL p.data = p.data) :
    trimPieces (joinCommaSpace ps) = ps := by
  cases ps with
  | nil => exact absurd rfl hne
  | cons p ps =>
    rw [trimPieces_eq,
      splitCharL_joinCS ps p (h p (List.mem_cons_self p ps)).2.1
        (fun q hq => (h q (List.mem_cons_of_mem p hq)).2.1)]
    rw [List.map_cons]
    have h1 : (⟨trimL p.data⟩ : String) = p := by
      rw [(h p (List.mem_cons_self p ps)).2.2, str_mk_data]
    have h2 : ps.map ((fun l => (⟨trimL l⟩ : String)) ∘ fun q => ' ' :: q.data) = ps := by
      apply List.map_congr_left ?_ |>.trans (List.map_id ps)
      intro q hq
      show (⟨trimL (' ' :: q.data)⟩ : String) = q
      rw [trimL_cons_ws ' ' q.data rfl, (h q (List.mem_cons_of_mem p hq)).2.2, str_mk_data]
    rw [List.map_map, h2, h1]
    exact List.filter_eq_self.mpr (fun a ha => by simp [(h a ha).1])

lemma entry_data (u d : String) : (u ++ " " ++ d).data = u.data ++ ' ' :: d.data := by
  rw [str_data_append, str_data_append, List.append_assoc]
  rfl

lemma entry_props (u d : String) (hu : NoWsComma u) (hd : NoWsComma d) :
    (u ++ " " ++ d) ≠ "" ∧ ',' ∉ (u ++ " " ++ d).data ∧
      trimL (u ++ " " ++ d).data = (u ++ " " ++ d).data := by
  refine ⟨str_append_ne_empty_left d (str_append_ne_empty_left " " hu.1), ?_, ?_⟩
  · rw [entry_data]
    intro hc
    rcases List.mem_append.mp hc with h1 | h1
    · exact (hu.2 ',' h1).2 rfl
    · rcases List.mem_cons.mp h1 with h2 | h2
      · exact absurd h2 (by decide)
      · exact (hd.2 ',' h2).2 rfl
  · rw [entry_data]
    apply trimL_eq_self
    · intro c hc
      rcases hu' : u.data with _ | ⟨x, t⟩
      · exact absurd hu' (str_ne_empty_data hu.1)
      · rw [hu'] at hc
        simp only [List.cons_append, List.head?_cons, Option.some_inj] at hc
        subst hc
        exact (hu.2 x (by rw [hu']; exact List.mem_cons_self x t)).1
    · intro c hc
      have hd' : d.data ≠ [] := str_ne_empty_data hd.1
      rw [getLast?_append_right u.data (' ' :: d.data) (by simp),
        show (' ' :: d.data) = [' '] ++ d.data from rfl,
        getLast?_append_right [' '] d.data hd'] at hc
      exact (hd.2 c (List.mem_of_mem_getLast? hc)).1

lemma srcsetEntry_start (resolve : String → Option String) (m : List (String × String))
    (u d : String) (hu : NoWsComma u) (hd : NoWsComma d) :
    rewriteSrcsetEntry resolve m (u ++ " " ++ d)
      = (match resolve u with
         | none => u ++ " " ++ d
         | some abs =>
           (match lookupStr m abs with
            | some loc => if loc = "" then u else loc
            | none => u) ++ (" " ++ d)) := by
  simp only [rewriteSrcsetEntry]
  rw [wsTokens_pair u d hu hd]
  simp only [List.headD_cons, List.get?_cons_succ, List.get?_cons_zero, Option.getD_some]
  rw [if_neg hd.1]

lemma rewriteSrcsetEntry_hit (resolve : String → Option String) (m : List (String × String))
    (u d abs loc : String) (hu : NoWsComma u) (hd : NoWsComma d)
    (hr : resolve u = some abs) (hl : lookupStr m abs = some loc) (hloc : loc ≠ "") :
    rewriteSrcsetEntry resolve m (u ++ " " ++ d) = loc ++ " " ++ d := by
  rw [srcsetEntry_start resolve m u d hu hd, hr]
  simp only [hl, if_neg hloc]
  exact (str_append_assoc loc " " d).symm

lemma rewriteSrcsetEntry_miss (resolve : String → Option String) (m : List (String × String))
    (u d abs : String) (hu : NoWsComma u) (hd : NoWsComma d)
    (hr : resolve u = some abs) (hl : lookupStr m abs = none) :
    rewriteSrcsetEntry resolve m (u ++ " " ++ d) = u ++ " " ++ d := by
  rw [srcsetEntry_start resolve m u d hu hd, hr]
  simp only [hl]
  exact (str_append_assoc u " " d).symm

/-- C1 (amended): within the srcset rewrite, a candidate whose URL part
resolves to a key of the map is replaced by the stored map value verbatim
(the host-token-prefixed local path, not a path made relative to the
origin folder), the descriptor is preserved, unresolved candidates keep
their URL part, and the candidates are re-joined with comma-space. -/
theorem C1_srcset_rewrite (resolve : String → Option String) (m : List (String × String))
    (u1 d1 u2 d2 loc abs1 abs2 : String)
    (hu1 : NoWsComma u1) (hd1 : NoWsComma d1) (hu2 : NoWsComma u2) (hd2 : NoWsComma d2)
    (hr1 : resolve u1 = some abs1) (hl1 : lookupStr m abs1 = some loc) (hloc : loc ≠ "")
    (hr2 : resolve u2 = some abs2) (hl2 : lookupStr m abs2 = none) :
    rewriteSrcset resolve m (u1 ++ " " ++ d1 ++ ", " ++ u2 ++ " " ++ d2)
      = loc ++ " " ++ d1 ++ ", " ++ (u2 ++ " " ++ d2) := by
  have hval : u1 ++ " " ++ d1 ++ ", " ++ u2 ++ " " ++ d2
      = joinCommaSpace [u1 ++ " " ++ d1, u2 ++ " " ++ d2] := by
    rw [joinCommaSpace_cons2]
    show _ = (u1 ++ " " ++ d1) ++ ", " ++ (u2 ++ " " ++ d2)
    apply str_data_eq
    simp [str_data_append]
  rw [hval]
  unfold rewriteSrcset
  rw [trimPieces_joinCS [u1 ++ " " ++ d1, u2 ++ " " ++ d2] (by simp)
    (by
      intro p hp
      rcases List.mem_cons.mp hp with rfl | hp2
      · exact entry_props u1 d1 hu1 hd1
      · rcases List.mem_cons.mp hp2 with rfl | hp3
        · exact entry_props u2 d2 hu2 hd2
        · exact absurd hp3 (List.not_mem_nil p))]
  rw [List.map_cons, List.map_cons, List.map_nil]
  rw [rewriteSrcsetEntry_hit resolve m u1 d1 abs1 loc hu1 hd1 hr1 hl1 hloc,
    rewriteSrcsetEntry_miss resolve m u2 d2 abs2 hu2 hd2 hr2 hl2]
  rw [joinCommaSpace_cons2, joinCommaSpace_single]

/-- resolution oracle of a small concrete site: two relative image
references against the start URL https of s.test. -/
def cexResolve : String → Option String := fun s =>
  if s = "a.png" then some "https://s.test/a.png"
  else if s = "b.png" then some "https://s.test/b.png"
  else none

/-- origin oracle of the same concrete site. -/
def cexOriginOf : String → Option String := fun u =>
  if u = "https://s.test/a.png" ∨ u = "https://s.test/b.png" then some "https://s.test"
  else none

/-- URL oracle bundling the two. -/
def cexUm : UrlModel := ⟨cexResolve, cexOriginOf⟩

/-- the concrete site: the seed page and a.png fetch fine, b.png fails. -/
def cexSite : Site :=
  ⟨fun u =>
    if u = "https://s.test/" then some ("text/html", [])
    else if u = "https://s.test/a.png" then some ("image/png", [])
    else none⟩

/-- the seed document: one srcset attribute with two candidates. -/
def cexDoc : List RefAttr := [⟨AttrKind.srcset, "a.png 1x, b.png 2x"⟩]

/-- the complete concrete run. -/
def cexRun : Except String RunOutcome :=
  runFull cexSite cexUm "https://s.test/" "https://s.test" "s.test" "" cexDoc 5

/-- C1 (counterexample): in the concrete run, a.png is resolved and its
map entry is the host-token-prefixed path s_test/img/a.png, whose path
relative to the origin folder is img/a.png; yet the rewritten srcset is
s_test/img/a.png 1x, b.png 2x, not the img/a.png 1x, b.png 2x the claim
states, so srcset candidates are not replaced by a path relative to the
origin folder. -/
theorem C1_counterexample :
    (cexRun.toOption.map fun o => lookupStr o.state.resolved "https://s.test/a.png")
        = some (some "s_test/img/a.png")
    ∧ posixRelative "s_test" "s_test/img/a.png" = "img/a.png"
    ∧ (cexRun.toOption.map RunOutcome.outDoc)
        = some [⟨AttrKind.srcset, "s_test/img/a.png 1x, b.png 2x"⟩]
    ∧ (cexRun.toOption.map RunOutcome.outDoc)
        ≠ some [⟨AttrKind.srcset, "img/a.png 1x, b.png 2x"⟩] := by
  refine ⟨by decide, by decide, by decide, by decide⟩

/-- C1 (witness): the amended srcset rewrite theorem applied at the
concrete map of the concrete run. -/
theorem C1_witness :
    rewriteSrcset cexResolve [("https://s.test/a.png", "s_test/img/a.png")]
        ("a.png" ++ " " ++ "1x" ++ ", " ++ "b.png" ++ " " ++ "2x")
      = "s_test/img/a.png" ++ " " ++ "1x" ++ ", " ++ ("b.png" ++ " " ++ "2x") :=
  C1_srcset_rewrite cexResolve [("https://s.test/a.png", "s_test/img/a.png")]
    "a.png" "1x" "b.png" "2x" "s_test/img/a.png" "https://s.test/a.png" "https://s.test/b.png"
    (by decide) (by decide) (by decide) (by decide)
    (by decide) (by decide) (by decide) (by decide) (by decide)

/-- list extension: the second list is the first with entries appended. -/
def Extends {α : Type} (l₁ l₂ : List α) : Prop := ∃ t, l₂ = l₁ ++ t

lemma extends_refl {α : Type} (l : List α) : Extends l l := ⟨[], by simp⟩

lemma extends_trans {α : Type} {a b c : List α} (h1 : Extends a b) (h2 : Extends b c) :
    Extends a c := by
  obtain ⟨t1, rfl⟩ := h1
  obtain ⟨t2, rfl⟩ := h2
  exact ⟨t1 ++ t2, by simp⟩

lemma extends_append {α : Type} (l t : List α) : Extends l (l ++ t) := ⟨t, rfl⟩

lemma extends_subset {α : Type} {a b : List α} (h : Extends a b) : a ⊆ b := by
  obtain ⟨t, rfl⟩ := h
  exact List.subset_append_left a t

lemma extends_length {α : Type} {a b : List α} (h : Extends a b) : a.length ≤ b.length := by
  obtain ⟨t, rfl⟩ := h
  simp

lemma extends_eq_of_length {α : Type} {a b : List α} (h : Extends a b)
    (hl : b.length = a.length) : b = a := by
  obtain ⟨t, rfl⟩ := h
  have : t = [] := by
    rw [List.length_append] at hl
    exact List.eq_nil_of_length_eq_zero (by omega)
  simp [this]

lemma lookupStr_cons (a b k : String) (r : List (String × String)) :
    lookupStr ((a, b) :: r) k = if a = k then some b else lookupStr r k := rfl

lemma lookupStr_extends {m t : List (String × String)} {k v : String}
    (h : lookupStr m k = some v) : lookupStr (m ++ t) k = some v := by
  induction m with
  | nil => exact absurd h (by simp [lookupStr])
  | cons p r ih =>
    obtain ⟨a, b⟩ := p
    rw [List.cons_append, lookupStr_cons]
    rw [lookupStr_cons] at h
    by_cases ha : a = k
    · rwa [if_pos ha] at h ⊢
    · rw [if_neg ha] at h ⊢
      exact ih h

lemma lookupStr_isSome_extends {m t : List (String × String)} {k : String}
    (h : (lookupStr m k).isSome = true) : (lookupStr (m ++ t) k).isSome = true := by
  obtain ⟨v, hv⟩ := Option.isSome_iff_exists.mp h
  rw [lookupStr_extends hv]
  rfl

lemma lookupStr_append_single {m : List (String × String)} {k : String} (w v : String)
    (h : lookupStr m k = none) :
    lookupStr (m ++ [(w, v)]) k = if w = k then some v else none := by
  induction m with
  | nil => rfl
  | cons p r ih =>
    obtain ⟨a, b⟩ := p
    rw [List.cons_append, lookupStr_cons]
    rw [lookupStr_cons] at h
    by_cases ha : a = k
    · rw [if_pos ha] at h
      exact absurd h (by simp)
    · rw [if_neg ha] at h ⊢
      exact ih h

lemma mem_addUrl {l : List String} {u v : String} :
    v ∈ addUrl l u ↔ v ∈ l ∨ v = u := by
  unfold addUrl
  by_cases h : u ∈ l
  · rw [if_pos h]
    constructor
    · exact Or.inl
    · rintro (hv | rfl)
      · exact hv
      · exact h
  · rw [if_neg h]
    simp

lemma extends_addUrl (l : List String) (u : String) : Extends l (addUrl l u) := by
  unfold addUrl
  by_cases h : u ∈ l
  · rw [if_pos h]; exact extends_refl l
  · rw [if_neg h]; exact extends_append l [u]

lemma extends_addUrls (l : List String) (us : List String) : Extends l (addUrls l us) := by
  induction us generalizing l with
  | nil => exact extends_refl l
  | cons u t ih => exact extends_trans (extends_addUrl l u) (ih (addUrl l u))

lemma mem_addUrls {l us : List String} {v : String} :
    v ∈ addUrls l us ↔ v ∈ l ∨ v ∈ us := by
  induction us generalizing l with
  | nil => simp [addUrls]
  | cons u t ih =>
    show v ∈ addUrls (addUrl l u) t ↔ _
    rw [ih, mem_addUrl]
    constructor
    · rintro ((hv | rfl) | hv)
      · exact Or.inl hv
      · exact Or.inr (List.mem_cons_self _ _)
      · exact Or.inr (List.mem_cons_of_mem u hv)
    · rintro (hv | hv)
      · exact Or.inl (Or.inl hv)
      · rcases List.mem_cons.mp hv with rfl | hv
        · exact Or.inl (Or.inr rfl)
        · exact Or.inr hv

lemma nodup_addUrl {l : List String} (u : String) (h : l.Nodup) : (addUrl l u).Nodup := by
  unfold addUrl
  by_cases hm : u ∈ l
  · rwa [if_pos hm]
  · rw [if_neg hm]
    rw [List.nodup_append]
    refine ⟨h, List.nodup_singleton u, fun a ha hb => ?_⟩
    have : a = u := by simpa using hb
    exact hm (this ▸ ha)

lemma nodup_addUrls {l : List String} (us : List String) (h : l.Nodup) :
    (addUrls l us).Nodup := by
  induction us generalizing l with
  | nil => exact h
  | cons u t ih => exact ih (nodup_addUrl u h)

/-- per-field extension of the crawl state: nothing is ever removed or
overwritten, all four components only grow at the end. -/
def StExtends (s1 s2 : CrawlState) : Prop :=
  Extends s1.toDownload s2.toDownload ∧ Extends s1.resolved s2.resolved ∧
    Extends s1.fetchLog s2.fetchLog ∧ Extends s1.saved s2.saved

lemma stExtends_refl (s : CrawlState) : StExtends s s :=
  ⟨extends_refl _, extends_refl _, extends_refl _, extends_refl _⟩

lemma stExtends_trans {a b c : CrawlState} (h1 : StExtends a b) (h2 : StExtends b c) :
    StExtends a c :=
  ⟨extends_trans h1.1 h2.1, extends_trans h1.2.1 h2.2.1,
    extends_trans h1.2.2.1 h2.2.2.1, extends_trans h1.2.2.2 h2.2.2.2⟩

lemma downloadOne_skip (site : Site) (originOf : String → Option String)
    (origin hostTok : String) (st : CrawlState) (u : String)
    (h : (lookupStr st.resolved u).isSome = true) :
    downloadOne site originOf origin hostTok st u = st := by
  unfold downloadOne
  rw [if_pos h]

lemma downloadOne_fail (site : Site) (originOf : String → Option String)
    (origin hostTok : String) (st : CrawlState) (u : String)
    (h : (lookupStr st.resolved u).isSome = false) (hf : site.fetch u = none) :
    downloadOne site originOf origin hostTok st u
      = { st with fetchLog := st.fetchLog ++ [u] } := by
  unfold downloadOne
  rw [if_neg (by simp [h]), hf]

lemma downloadOne_succ (site : Site) (originOf : String → Option String)
    (origin hostTok : String) (st : CrawlState) (u ct : String) (links : List String)
    (h : (lookupStr st.resolved u).isSome = false) (hf : site.fetch u = some (ct, links)) :
    downloadOne site originOf origin hostTok st u
      = (if isCss ct then
          (⟨addUrls st.toDownload (sameOriginFilter originOf origin links),
            st.resolved ++ [(u, mapValue hostTok u ct)],
            st.fetchLog ++ [u], st.saved ++ [mapValue hostTok u ct]⟩ : CrawlState)
         else
          ⟨st.toDownload, st.resolved ++ [(u, mapValue hostTok u ct)],
            st.fetchLog ++ [u], st.saved ++ [mapValue hostTok u ct]⟩) := by
  unfold downloadOne
  rw [if_neg (by simp [h]), hf]

lemma downloadOne_stExtends (site : Site) (originOf : String → Option String)
    (origin hostTok : String) (st : CrawlState) (u : String) :
    StExtends st (downloadOne site originOf origin hostTok st u) := by
  by_cases h : (lookupStr st.resolved u).isSome = true
  · rw [downloadOne_skip site originOf origin hostTok st u h]
    exact stExtends_refl st
  · have h' : (lookupStr st.resolved u).isSome = false := by
      cases hs : (lookupStr st.resolved u).isSome
      · rfl
      · exact absurd hs h
    cases hf : site.fetch u with
    | none =>
      rw [downloadOne_fail site originOf origin hostTok st u h' hf]
      exact ⟨extends_refl _, extends_refl _, extends_append _ [u], extends_refl _⟩
    | some p =>
      obtain ⟨ct, links⟩ := p
      rw [downloadOne_succ site originOf origin hostTok st u ct links h' hf]
      by_cases hc : isCss ct
      · rw [if_pos hc]
        exact ⟨extends_addUrls _ _, extends_append _ _, extends_append _ _, extends_append _ _⟩
      · rw [if_neg hc]
        exact ⟨extends_refl _, extends_append _ _, extends_append _ _, extends_append _ _⟩

lemma foldl_stExtends (site : Site) (originOf : String → Option String)
    (origin hostTok : String) (l : List String) (st : CrawlState) :
    StExtends st (l.foldl (downloadOne site originOf origin hostTok) st) := by
  induction l generalizing st with
  | nil => exact stExtends_refl st
  | cons u t ih =>
    exact stExtends_trans (downloadOne_stExtends site originOf origin hostTok st u)
      (ih (downloadOne site originOf origin hostTok st u))

lemma wave_stExtends (site : Site) (originOf : String → Option String)
    (origin hostTok : String) (st : CrawlState) :
    StExtends st (wave site originOf origin hostTok st) :=
  foldl_stExtends site originOf origin hostTok st.toDownload st

lemma crawlLoop_stExtends (site : Site) (originOf : String → Option String)
    (origin hostTok : String) (fuel prev : Nat) (st : CrawlState) :
    StExtends st (crawlLoop site originOf origin hostTok fuel prev st) := by
  induction fuel generalizing prev st with
  | zero => exact stExtends_refl st
  | succ n ih =>
    unfold crawlLoop
    by_cases h : st.toDownload.length = prev
    · rw [if_pos h]
      exact stExtends_refl st
    · rw [if_neg h]
      exact stExtends_trans (wave_stExtends site originOf origin hostTok st)
        (ih st.toDownload.length (wave site originOf origin hostTok st))

/-- preservation of a state predicate through one downloadOne step lifts
through folds, waves and the whole loop. -/
lemma foldl_preserve (site : Site) (originOf : String → Option String)
    (origin hostTok : String) (P : CrawlState → Prop)
    (hstep : ∀ st u, P st → P (downloadOne site originOf origin hostTok st u)) :
    ∀ (l : List String) (st : CrawlState), P st →
      P (l.foldl (downloadOne site originOf origin hostTok) st) := by
  intro l
  induction l with
  | nil => exact fun st h => h
  | cons u t ih =>
    intro st h
    exact ih (downloadOne site originOf origin hostTok st u) (hstep st u h)

lemma crawlLoop_preserve (site : Site) (originOf : String → Option String)
    (origin hostTok : String) (P : CrawlState → Prop)
    (hstep : ∀ st u, P st → P (downloadOne site originOf origin hostTok st u)) :
    ∀ (fuel prev : Nat) (st : CrawlState), P st →
      P (crawlLoop site originOf origin hostTok fuel prev st) := by
  intro fuel
  induction fuel with
  | zero => exact fun prev st h => h
  | succ n ih =>
    intro prev st h
    unfold crawlLoop
    by_cases hc : st.toDownload.length = prev
    · rw [if_pos hc]
      exact h
    · rw [if_neg hc]
      exact ih st.toDownload.length (wave site originOf origin hostTok st)
        (foldl_preserve site originOf origin hostTok P hstep st.toDownload st h)

lemma runCrawl_preserve (site : Site) (originOf : String → Option String)
    (origin hostTok : String) (P : CrawlState → Prop)
    (hstep : ∀ st u, P st → P (downloadOne site originOf origin hostTok st u))
    (assets : List String) (fuel : Nat) (hinit : P (initState assets)) :
    P (runCrawl site originOf origin hostTok assets fuel) :=
  crawlLoop_preserve site originOf origin hostTok P hstep fuel 0 _
    (foldl_preserve site originOf origin hostTok P hstep _ _ hinit)

/-- C8: the pending set and the resolved map are monotonic insert-once
structures for the whole run: downloadOne on an already-resolved URL is a
no-op on the entire state (map, pending set, fetch log and disk), every
step only appends to both structures, the loop preserves this, and a
resolved entry keeps its value to the end of the loop. -/
theorem C8_insert_once :
    ∀ (site : Site) (originOf : String → Option String) (origin hostTok : String),
      (∀ (st : CrawlState) (u : String), (lookupStr st.resolved u).isSome = true →
        downloadOne site originOf origin hostTok st u = st)
      ∧ (∀ (st : CrawlState) (u : String),
          StExtends st (downloadOne site originOf origin hostTok st u))
      ∧ (∀ (fuel prev : Nat) (st : CrawlState),
          StExtends st (crawlLoop site originOf origin hostTok fuel prev st))
      ∧ (∀ (fuel prev : Nat) (st : CrawlState) (k v : String),
          lookupStr st.resolved k = some v →
          lookupStr (crawlLoop site originOf origin hostTok fuel prev st).resolved k
            = some v) := by
  intro site originOf origin hostTok
  refine ⟨downloadOne_skip site originOf origin hostTok,
    downloadOne_stExtends site originOf origin hostTok,
    crawlLoop_stExtends site originOf origin hostTok, ?_⟩
  intro fuel prev st k v h
  obtain ⟨t, ht⟩ := (crawlLoop_stExtends site originOf origin hostTok fuel prev st).2.1
  rw [ht]
  exact lookupStr_extends h

/-- C8 (witness): the no-op clause applied at a concrete resolved state. -/
theorem C8_witness :
    downloadOne cexSite cexOriginOf "https://s.test" "s_test"
        ⟨[], [("u", "p")], [], []⟩ "u" = ⟨[], [("u", "p")], [], []⟩ :=
  (C8_insert_once cexSite cexOriginOf "https://s.test" "s_test").1
    ⟨[], [("u", "p")], [], []⟩ "u" (by decide)

/-- fetch-count invariant: a resolved URL has been fetched exactly once,
and a URL that would fetch successfully but is not yet resolved has not
been fetched at all. -/
def FetchCount (site : Site) (st : CrawlState) : Prop :=
  ∀ u : String,
    ((lookupStr st.resolved u).isSome = true → st.fetchLog.count u = 1)
    ∧ ((lookupStr st.resolved u).isSome = false → site.fetch u ≠ none →
        st.fetchLog.count u = 0)

lemma fetchCount_step (site : Site) (originOf : String → Option String)
    (origin hostTok : String) :
    ∀ (st : CrawlState) (w : String), FetchCount site st →
      FetchCount site (downloadOne site originOf origin hostTok st w) := by
  intro st w h
  by_cases hw : (lookupStr st.resolved w).isSome = true
  · rw [downloadOne_skip site originOf origin hostTok st w hw]
    exact h
  · have hw' : (lookupStr st.resolved w).isSome = false := by
      cases hs : (lookupStr st.resolved w).isSome
      · rfl
      · exact absurd hs hw
    have hwnone : lookupStr st.resolved w = none := by
      cases hs : lookupStr st.resolved w
      · rfl
      · rw [hs] at hw'
        exact absurd hw' (by simp)
    cases hf : site.fetch w with
    | none =>
      rw [downloadOne_fail site originOf origin hostTok st w hw' hf]
      intro u
      refine ⟨fun hu => ?_, fun hu hsucc => ?_⟩
      · by_cases huw : u = w
        · subst huw
          exact absurd hu (by rw [hw']; simp)
        · show (st.fetchLog ++ [w]).count u = 1
          rw [List.count_append]
          have : ([w].count u) = 0 := by
            simp [List.count_singleton]
            exact fun hc => huw hc.symm
          rw [this, (h u).1 hu]
      · by_cases huw : u = w
        · subst huw
          exact absurd hf hsucc
        · show (st.fetchLog ++ [w]).count u = 0
          rw [List.count_append]
          have h2 : ([w].count u) = 0 := by
            simp [List.count_singleton]
            exact fun hc => huw hc.symm
          rw [h2, (h u).2 hu hsucc]
    | some p =>
      obtain ⟨ct, links⟩ := p
      rw [downloadOne_succ site originOf origin hostTok st w ct links hw' hf]
      have key : ∀ (td : List String) (sv : List String),
          FetchCount site
            ⟨td, st.resolved ++ [(w, mapValue hostTok w ct)], st.fetchLog ++ [w], sv⟩ := by
        intro td sv u
        have hnewlookup : lookupStr (st.resolved ++ [(w, mapValue hostTok w ct)]) u
            = if w = u then some (mapValue hostTok w ct) else lookupStr st.resolved u := by
          cases hl : lookupStr st.resolved u with
          | none => rw [lookupStr_append_single w _ hl]
          | some v =>
            rw [lookupStr_extends hl]
            by_cases huw : w = u
            · subst huw
              rw [hl] at hwnone
              exact absurd hwnone (by simp)
            · rw [if_neg huw]
        refine ⟨fun hu => ?_, fun hu hsucc => ?_⟩
        · show (st.fetchLog ++ [w]).count u = 1
          by_cases huw : u = w
          · subst huw
            rw [List.count_append, (h u).2 hw' (by rw [hf]; simp)]
            simp [List.count_singleton]
          · rw [hnewlookup, if_neg (fun hc => huw hc.symm)] at hu
            rw [List.count_append]
            have h2 : ([w].count u) = 0 := by
              simp [List.count_singleton]
              exact fun hc => huw hc.symm
            rw [h2, (h u).1 hu]
        · show (st.fetchLog ++ [w]).count u = 0
          by_cases huw : u = w
          · subst huw
            rw [hnewlookup, if_pos rfl] at hu
            exact absurd hu (by simp)
          · rw [hnewlookup, if_neg (fun hc => huw hc.symm)] at hu
            rw [List.count_append]
            have h2 : ([w].count u) = 0 := by
              simp [List.count_singleton]
              exact fun hc => huw hc.symm
            rw [h2, (h u).2 hu hsucc]
      by_cases hc : isCss ct
      · rw [if_pos hc]
        exact key _ _
      · rw [if_neg hc]
        exact key _ _

/-- C2 (amended): every URL that ends up in the ResolvedMap was passed to
the fetch primitive exactly once over the whole run; in particular a URL
already present in the map is never re-fetched. -/
theorem C2_resolved_fetched_once :
    ∀ (site : Site) (originOf : String → Option String) (origin hostTok : String)
      (assets : List String) (fuel : Nat) (u : String),
      (lookupStr (runCrawl site originOf origin hostTok assets fuel).resolved u).isSome
          = true →
      (runCrawl site originOf origin hostTok assets fuel).fetchLog.count u = 1 := by
  intro site originOf origin hostTok assets fuel u h
  have hinit : FetchCount site (initState assets) := by
    intro v
    refine ⟨fun hv => ?_, fun hv hsucc => rfl⟩
    exact absurd hv (by simp [initState, lookupStr])
  exact (runCrawl_preserve site originOf origin hostTok (FetchCount site)
    (fetchCount_step site originOf origin hostTok) assets fuel hinit u).1 h

/-- C2 (witness): the amended theorem applied to the concrete site, where
the one successfully fetched asset is fetched exactly once. -/
theorem C2_witness :
    (runCrawl cexSite cexOriginOf "https://s.test" "s_test"
        ["https://s.test/a.png"] 5).fetchLog.count "https://s.test/a.png" = 1 :=
  C2_resolved_fetched_once cexSite cexOriginOf "https://s.test" "s_test"
    ["https://s.test/a.png"] 5 "https://s.test/a.png" (by decide)

/-- a site on which every fetch fails. -/
def cexFailSite : Site := ⟨fun _ => none⟩

/-- an origin oracle accepting everything as same-origin. -/
def cexAnyOrigin : String → Option String := fun _ => some "https://s.test"

/-- C2 (counterexample): with a single asset whose fetch fails, the wave
loop re-dispatches the whole pending set once more, so the failed URL is
passed to the fetch primitive twice in one run, refuting the claim that no
URL is ever fetched more than once and that a failed URL is never
attempted again. -/
theorem C2_counterexample :
    (runCrawl cexFailSite cexAnyOrigin "https://s.test" "s_test"
        ["https://s.test/a.png"] 5).fetchLog
      = ["https://s.test/a.png", "https://s.test/a.png"] := by
  decide

/-- the first slash-separated segment of a path. -/
def firstSeg (s : String) : String := ⟨s.data.takeWhile (fun c => c ≠ '/')⟩

lemma replaceBackslash_no_bs (s : String) : '\\' ∉ (replaceBackslash s).data := by
  intro hc
  simp only [replaceBackslash] at hc
  obtain ⟨c, _, hce⟩ := List.mem_map.mp hc
  by_cases h : c = '\\'
  · rw [if_pos h] at hce
    exact absurd hce (by decide)
  · rw [if_neg h] at hce
    exact h hce

lemma replaceBackslash_append (a b : String) :
    replaceBackslash (a ++ b) = replaceBackslash a ++ replaceBackslash b := by
  apply str_data_eq
  simp [replaceBackslash, str_data_append]

lemma replaceBackslash_id (s : String) (h : '\\' ∉ s.data) : replaceBackslash s = s := by
  apply str_data_eq
  simp only [replaceBackslash]
  refine (List.map_congr_left fun c hc => ?_).trans (List.map_id _)
  exact if_neg fun he : c = '\\' => h (he ▸ hc)

lemma sanitizeFilename_ne_empty (s : String) : sanitizeFilename s ≠ "" := by
  simp only [sanitizeFilename]
  by_cases h : (⟨(s.data.map fun c => if isFsHostile c then '_' else c).take 200⟩ : String) = ""
  · rw [if_pos h]
    decide
  · rw [if_neg h]
    exact h

lemma localPathFor_shape (tok p ct : String) (htok : tok ≠ "") :
    ∃ rest : String, localPathFor tok p ct = tok ++ "/" ++ rest := by
  simp only [localPathFor]
  have hng : sanitizeFilename (if pathBasename p = "" then "index" else pathBasename p)
      ++ (if extFromUrlOrType p ct ≠ "" ∧ pathExtname p = "" then extFromUrlOrType p ct
          else "") ≠ "" :=
    str_append_ne_empty_left _ (sanitizeFilename_ne_empty _)
  rw [if_pos hng]
  by_cases hs : chooseSubdirByExt (extFromUrlOrType p ct) = ""
  · rw [if_neg (fun hh => hh hs)]
    rw [pjoin_ne tok _ htok hng]
    exact ⟨_, rfl⟩
  · rw [if_pos hs, pjoin_ne tok _ htok hs,
      pjoin_ne _ _ (str_append_ne_empty_left _ (str_append_ne_empty_left _ htok)) hng]
    refine ⟨chooseSubdirByExt (extFromUrlOrType p ct) ++ "/"
      ++ (sanitizeFilename (if pathBasename p = "" then "index" else pathBasename p)
          ++ (if extFromUrlOrType p ct ≠ "" ∧ pathExtname p = "" then extFromUrlOrType p ct
              else "")), ?_⟩
    apply str_data_eq
    simp [str_data_append]

lemma takeWhile_append_stop {p : Char → Bool} (l1 : List Char) (x : Char) (l2 : List Char)
    (h1 : ∀ c ∈ l1, p c = true) (h2 : p x = false) :
    (l1 ++ x :: l2).takeWhile p = l1 := by
  induction l1 with
  | nil => simp [List.takeWhile_cons, h2]
  | cons a t ih =>
    rw [List.cons_append, List.takeWhile_cons, h1 a (List.mem_cons_self a t)]
    rw [ih (fun c hc => h1 c (List.mem_cons_of_mem a hc))]
    simp

lemma firstSeg_prefix (tok rest : String) (h : '/' ∉ tok.data) :
    firstSeg (tok ++ "/" ++ rest) = tok := by
  apply str_data_eq
  simp only [firstSeg]
  have hd : (tok ++ "/" ++ rest).data = tok.data ++ '/' :: rest.data := by
    rw [str_data_append, str_data_append, List.append_assoc]
    rfl
  rw [hd, takeWhile_append_stop tok.data '/' rest.data
    (fun c hc => by simp; exact fun he => h (he ▸ hc)) (by decide)]

lemma mapValue_shape (tok u ct : String) (htok : tok ≠ "") (hbs : '\\' ∉ tok.data)
    (hsl : '/' ∉ tok.data) :
    (∃ rest : String, mapValue tok u ct = tok ++ "/" ++ rest)
    ∧ '\\' ∉ (mapValue tok u ct).data ∧ firstSeg (mapValue tok u ct) = tok := by
  obtain ⟨rest0, hr⟩ := localPathFor_shape tok (urlPathname u) ct htok
  have hv : mapValue tok u ct = tok ++ "/" ++ replaceBackslash rest0 := by
    unfold mapValue
    rw [hr, replaceBackslash_append, replaceBackslash_append,
      replaceBackslash_id tok hbs]
    rfl
  refine ⟨⟨replaceBackslash rest0, hv⟩, ?_, ?_⟩
  · exact replaceBackslash_no_bs _
  · rw [hv]
    exact firstSeg_prefix tok _ hsl

/-- invariant: every value of the resolved map is a backslash-free path
whose first segment is the host token. -/
def ResolvedShape (hostTok : String) (st : CrawlState) : Prop :=
  ∀ kv ∈ st.resolved, (∃ rest : String, kv.2 = hostTok ++ "/" ++ rest)
    ∧ '\\' ∉ kv.2.data ∧ firstSeg kv.2 = hostTok

lemma resolvedShape_step (site : Site) (originOf : String → Option String)
    (origin hostTok : String) (htok : hostTok ≠ "") (hbs : '\\' ∉ hostTok.data)
    (hsl : '/' ∉ hostTok.data) :
    ∀ (st : CrawlState) (u : String), ResolvedShape hostTok st →
      ResolvedShape hostTok (downloadOne site originOf origin hostTok st u) := by
  intro st u h
  by_cases hw : (lookupStr st.resolved u).isSome = true
  · rw [downloadOne_skip site originOf origin hostTok st u hw]
    exact h
  · have hw' : (lookupStr st.resolved u).isSome = false := by
      cases hs : (lookupStr st.resolved u).isSome
      · rfl
      · exact absurd hs hw
    cases hf : site.fetch u with
    | none =>
      rw [downloadOne_fail site originOf origin hostTok st u hw' hf]
      exact h
    | some p =>
      obtain ⟨ct, links⟩ := p
      rw [downloadOne_succ site originOf origin hostTok st u ct links hw' hf]
      have key : ∀ kv ∈ st.resolved ++ [(u, mapValue hostTok u ct)],
          (∃ rest : String, kv.2 = hostTok ++ "/" ++ rest)
          ∧ '\\' ∉ kv.2.data ∧ firstSeg kv.2 = hostTok := by
        intro kv hkv
        rcases List.mem_append.mp hkv with hold | hnew
        · exact h kv hold
        · rcases List.mem_cons.mp hnew with rfl | hnil
          · exact mapValue_shape hostTok u ct htok hbs hsl
          · exact absurd hnil (List.not_mem_nil kv)
      by_cases hc : isCss ct
      · rw [if_pos hc]
        exact key
      · rw [if_neg hc]
        exact key

lemma runCrawl_resolvedShape (site : Site) (originOf : String → Option String)
    (origin hostTok : String) (assets : List String) (fuel : Nat)
    (htok : hostTok ≠ "") (hbs : '\\' ∉ hostTok.data) (hsl : '/' ∉ hostTok.data) :
    ResolvedShape hostTok (runCrawl site originOf origin hostTok assets fuel) :=
  runCrawl_preserve site originOf origin hostTok (ResolvedShape hostTok)
    (resolvedShape_step site originOf origin hostTok htok hbs hsl) assets fuel
    (fun kv hkv => absurd hkv (List.not_mem_nil kv))

/-- C9: every entry stored in the resolved map carries a posix-style value
with no backslash whose first path segment is the host token, that is, the
full path-mapper output rather than a path relative to the origin folder. -/
theorem C9_map_values_host_prefixed :
    ∀ (site : Site) (originOf : String → Option String) (origin hostTok : String)
      (assets : List String) (fuel : Nat),
      hostTok ≠ "" → '\\' ∉ hostTok.data → '/' ∉ hostTok.data →
      ∀ kv ∈ (runCrawl site originOf origin hostTok assets fuel).resolved,
        (∃ rest : String, kv.2 = hostTok ++ "/" ++ rest)
        ∧ '\\' ∉ kv.2.data ∧ firstSeg kv.2 = hostTok :=
  fun site originOf origin hostTok assets fuel htok hbs hsl =>
    runCrawl_resolvedShape site originOf origin hostTok assets fuel htok hbs hsl

/-- C9 (witness): the shape theorem applied to the one entry of the
concrete run. -/
theorem C9_witness :
    (∃ rest : String, "s_test/img/a.png" = "s_test" ++ "/" ++ rest)
    ∧ '\\' ∉ ("s_test/img/a.png" : String).data
    ∧ firstSeg "s_test/img/a.png" = "s_test" :=
  C9_map_values_host_prefixed cexSite cexOriginOf "https://s.test" "s_test"
    ["https://s.test/a.png"] 5 (by decide) (by decide) (by decide)
    ("https://s.test/a.png", "s_test/img/a.png") (by decide)

lemma runFull_seed_fail (site : Site) (um : UrlModel)
    (startUrl origin hostname scriptDir : String) (doc : List RefAttr) (fuel : Nat)
    (hf : site.fetch startUrl = none) :
    runFull site um startUrl origin hostname scriptDir doc fuel
      = Except.error "seed fetch failed" := by
  unfold runFull
  rw [hf]

lemma runFull_seed_ok (site : Site) (um : UrlModel)
    (startUrl origin hostname scriptDir : String) (doc : List RefAttr) (fuel : Nat)
    (p : String × List String) (hf : site.fetch startUrl = some p) :
    runFull site um startUrl origin hostname scriptDir doc fuel
      = Except.ok
          { state := runCrawl site um.originOf origin (hostTokenOf hostname)
              (collectDoc um.resolve um.originOf origin doc) fuel
            outDoc := rewriteDoc um.resolve
              (runCrawl site um.originOf origin (hostTokenOf hostname)
                (collectDoc um.resolve um.originOf origin doc) fuel).resolved
              (hostTokenOf hostname) doc
            htmlPath := pjoin (pjoin (pjoin scriptDir "downloaded") (hostTokenOf hostname))
              "index.html"
            resolvedCount := (runCrawl site um.originOf origin (hostTokenOf hostname)
              (collectDoc um.resolve um.originOf origin doc) fuel).resolved.length } := by
  unfold runFull
  rw [hf]

lemma hostTokenOf_ne_empty {h : String} (hne : h ≠ "") : hostTokenOf h ≠ "" := by
  intro hc
  apply hne
  apply str_data_eq
  have h2 := congrArg String.data hc
  simp only [hostTokenOf] at h2
  simpa using List.map_eq_nil_iff.mp h2

lemma hostTokenOf_not_mem (h : String) (ch : Char) (hch : ch ∉ h.data) (h1 : ch ≠ '_') :
    ch ∉ (hostTokenOf h).data := by
  intro hc
  simp only [hostTokenOf] at hc
  obtain ⟨c, hcmem, hce⟩ := List.mem_map.mp hc
  by_cases hd : c = '.' ∨ c = ':'
  · rw [if_pos hd] at hce
    exact h1 hce.symm
  · rw [if_neg hd] at hce
    exact hch (hce ▸ hcmem)

/-- extraction of the outcome of a completed run, with an inert default
for the error case. -/
def getOk (r : Except String RunOutcome) : RunOutcome :=
  match r with
  | Except.ok o => o
  | Except.error _ => ⟨⟨[], [], [], []⟩, [], "", 0⟩

/-- C10: the output folder token is the seed hostname with every dot and
colon replaced by an underscore, the rewritten document is saved exactly
at scriptDir/downloaded/token/index.html, and every stored local path
starts with that token as its first segment. -/
theorem C10_host_token_layout :
    ∀ (site : Site) (um : UrlModel) (startUrl origin hostname scriptDir : String)
      (doc : List RefAttr) (fuel : Nat) (out : RunOutcome),
      runFull site um startUrl origin hostname scriptDir doc fuel = Except.ok out →
      hostname ≠ "" → scriptDir ≠ "" → '/' ∉ hostname.data → '\\' ∉ hostname.data →
      out.htmlPath = scriptDir ++ "/downloaded/" ++ hostTokenOf hostname ++ "/index.html"
      ∧ (hostTokenOf hostname).data
          = hostname.data.map (fun c => if c = '.' ∨ c = ':' then '_' else c)
      ∧ ∀ kv ∈ out.state.resolved, firstSeg kv.2 = hostTokenOf hostname := by
  intro site um startUrl origin hostname scriptDir doc fuel out hok hhost hdir hsl hbs
  have htok : hostTokenOf hostname ≠ "" := hostTokenOf_ne_empty hhost
  have htsl : '/' ∉ (hostTokenOf hostname).data :=
    hostTokenOf_not_mem hostname '/' hsl (by decide)
  have htbs : '\\' ∉ (hostTokenOf hostname).data :=
    hostTokenOf_not_mem hostname '\\' hbs (by decide)
  cases hf : site.fetch startUrl with
  | none =>
    rw [runFull_seed_fail site um startUrl origin hostname scriptDir doc fuel hf] at hok
    exact absurd hok (by simp)
  | some p =>
    rw [runFull_seed_ok site um startUrl origin hostname scriptDir doc fuel p hf] at hok
    have hout := (Except.ok.injEq _ _).mp hok.symm
    subst hout
    refine ⟨?_, rfl, ?_⟩
    · show pjoin (pjoin (pjoin scriptDir "downloaded") (hostTokenOf hostname)) "index.html" = _
      rw [pjoin_ne scriptDir "downloaded" hdir (by decide)]
      rw [pjoin_ne _ _ (str_append_ne_empty_left _ (str_append_ne_empty_left _ hdir)) htok]
      rw [pjoin_ne _ _ (str_append_ne_empty_left _ (str_append_ne_empty_left _
        (str_append_ne_empty_left _ (str_append_ne_empty_left _ hdir)))) (by decide)]
      apply str_data_eq
      simp only [str_data_append, List.append_assoc]
      rfl
    · intro kv hkv
      exact (runCrawl_resolvedShape site um.originOf origin (hostTokenOf hostname)
        (collectDoc um.resolve um.originOf origin doc) fuel htok htbs htsl kv hkv).2.2

/-- a second concrete run, with a non-empty script folder. -/
def cexRun2 : Except String RunOutcome :=
  runFull cexSite cexUm "https://s.test/" "https://s.test" "s.test" "/app" cexDoc 5

/-- C10 (witness): the layout theorem applied to the concrete run. -/
theorem C10_witness :
    (getOk cexRun2).htmlPath = "/app" ++ "/downloaded/" ++ hostTokenOf "s.test" ++ "/index.html"
    ∧ (hostTokenOf "s.test").data
        = "s.test".data.map (fun c => if c = '.' ∨ c = ':' then '_' else c)
    ∧ ∀ kv ∈ (getOk cexRun2).state.resolved, firstSeg kv.2 = hostTokenOf "s.test" :=
  C10_host_token_layout cexSite cexUm "https://s.test/" "https://s.test" "s.test" "/app"
    cexDoc 5 (getOk cexRun2) rfl (by decide) (by decide) (by decide) (by decide)

lemma lookupStr_mem {m : List (String × String)} {k v : String}
    (h : lookupStr m k = some v) : (k, v) ∈ m := by
  induction m with
  | nil => exact absurd h (by simp [lookupStr])
  | cons p r ih =>
    obtain ⟨a, b⟩ := p
    rw [lookupStr_cons] at h
    by_cases ha : a = k
    · rw [if_pos ha] at h
      subst ha
      rw [Option.some_inj.mp h]
      exact List.mem_cons_self _ _
    · rw [if_neg ha] at h
      exact List.mem_cons_of_mem _ (ih h)

lemma lookupStr_none_of_all {m : List (String × String)} {k : String}
    (P : String → Prop) (hall : ∀ kv ∈ m, P kv.1) (hk : ¬ P k) :
    lookupStr m k = none := by
  cases h : lookupStr m k with
  | none => rfl
  | some v => exact absurd (hall (k, v) (lookupStr_mem h)) hk

/-- invariant: everything in the pending set, the fetch log and the key
side of the resolved map parses to the seed origin. -/
def SameOriginInv (originOf : String → Option String) (origin : String)
    (st : CrawlState) : Prop :=
  (∀ u ∈ st.toDownload, originOf u = some origin)
  ∧ (∀ u ∈ st.fetchLog, originOf u = some origin)
  ∧ (∀ kv ∈ st.resolved, originOf kv.1 = some origin)

lemma sameOrigin_step (site : Site) (originOf : String → Option String)
    (origin hostTok : String) (st : CrawlState) (u : String)
    (hu : originOf u = some origin) (h : SameOriginInv originOf origin st) :
    SameOriginInv originOf origin (downloadOne site originOf origin hostTok st u) := by
  by_cases hw : (lookupStr st.resolved u).isSome = true
  · rwa [downloadOne_skip site originOf origin hostTok st u hw]
  · have hw' : (lookupStr st.resolved u).isSome = false := by
      cases hs : (lookupStr st.resolved u).isSome
      · rfl
      · exact absurd hs hw
    cases hf : site.fetch u with
    | none =>
      rw [downloadOne_fail site originOf origin hostTok st u hw' hf]
      refine ⟨h.1, fun v hv => ?_, h.2.2⟩
      rcases List.mem_append.mp hv with hv | hv
      · exact h.2.1 v hv
      · rcases List.mem_cons.mp hv with rfl | hv
        · exact hu
        · exact absurd hv (List.not_mem_nil v)
    | some p =>
      obtain ⟨ct, links⟩ := p
      rw [downloadOne_succ site originOf origin hostTok st u ct links hw' hf]
      have hres : ∀ kv ∈ st.resolved ++ [(u, mapValue hostTok u ct)],
          originOf kv.1 = some origin := by
        intro kv hkv
        rcases List.mem_append.mp hkv with hkv | hkv
        · exact h.2.2 kv hkv
        · rcases List.mem_cons.mp hkv with rfl | hkv
          · exact hu
          · exact absurd hkv (List.not_mem_nil kv)
      have hlog : ∀ v ∈ st.fetchLog ++ [u], originOf v = some origin := by
        intro v hv
        rcases List.mem_append.mp hv with hv | hv
        · exact h.2.1 v hv
        · rcases List.mem_cons.mp hv with rfl | hv
          · exact hu
          · exact absurd hv (List.not_mem_nil v)
      by_cases hc : isCss ct
      · rw [if_pos hc]
        refine ⟨fun v hv => ?_, hlog, hres⟩
        rcases mem_addUrls.mp hv with hv | hv
        · exact h.1 v hv
        · have := List.mem_filter.mp hv
          exact of_decide_eq_true this.2
      · rw [if_neg hc]
        exact ⟨h.1, hlog, hres⟩

lemma sameOrigin_foldl (site : Site) (originOf : String → Option String)
    (origin hostTok : String) :
    ∀ (l : List String) (st : CrawlState), (∀ u ∈ l, originOf u = some origin) →
      SameOriginInv originOf origin st →
      SameOriginInv originOf origin (l.foldl (downloadOne site originOf origin hostTok) st) := by
  intro l
  induction l with
  | nil => exact fun st _ h => h
  | cons u t ih =>
    intro st hl h
    exact ih (downloadOne site originOf origin hostTok st u)
      (fun v hv => hl v (List.mem_cons_of_mem u hv))
      (sameOrigin_step site originOf origin hostTok st u (hl u (List.mem_cons_self u t)) h)

lemma sameOrigin_wave (site : Site) (originOf : String → Option String)
    (origin hostTok : String) (st : CrawlState)
    (h : SameOriginInv originOf origin st) :
    SameOriginInv originOf origin (wave site originOf origin hostTok st) :=
  sameOrigin_foldl site originOf origin hostTok st.toDownload st h.1 h

lemma sameOrigin_loop (site : Site) (originOf : String → Option String)
    (origin hostTok : String) :
    ∀ (fuel prev : Nat) (st : CrawlState), SameOriginInv originOf origin st →
      SameOriginInv originOf origin (crawlLoop site originOf origin hostTok fuel prev st) := by
  intro fuel
  induction fuel with
  | zero => exact fun prev st h => h
  | succ n ih =>
    intro prev st h
    unfold crawlLoop
    by_cases hc : st.toDownload.length = prev
    · rw [if_pos hc]
      exact h
    · rw [if_neg hc]
      exact ih st.toDownload.length _ (sameOrigin_wave site originOf origin hostTok st h)

lemma collectDoc_sameOrigin (resolve originOf : String → Option String) (origin : String)
    (doc : List RefAttr) :
    ∀ u ∈ collectDoc resolve originOf origin doc, originOf u = some origin := by
  intro u hu
  obtain ⟨l, hl, hul⟩ := List.mem_flatten.mp hu
  obtain ⟨a, _, hla⟩ := List.mem_map.mp hl
  subst hla
  unfold collectFromAttr at hul
  by_cases hv : a.val = ""
  · rw [if_pos hv] at hul
    exact absurd hul (List.not_mem_nil u)
  · rw [if_neg hv] at hul
    cases hk : a.kind with
    | srcset =>
      rw [hk] at hul
      obtain ⟨href, _, hres⟩ := List.mem_filterMap.mp hul
      cases hr : resolve href with
      | none => simp only [hr] at hres; exact absurd hres (by simp)
      | some w =>
        simp only [hr] at hres
        by_cases ho : originOf w = some origin
        · rw [if_pos ho] at hres
          rw [← Option.some_inj.mp hres]
          exact ho
        · rw [if_neg ho] at hres
          exact absurd hres (by simp)
    | plain =>
      rw [hk] at hul
      cases hr : resolve a.val with
      | none => simp only [hr] at hul; exact absurd hul (List.not_mem_nil u)
      | some w =>
        simp only [hr] at hul
        by_cases ho : originOf w = some origin
        · rw [if_pos ho] at hul
          rcases List.mem_cons.mp hul with rfl | hul
          · exact ho
          · exact absurd hul (List.not_mem_nil u)
        · rw [if_neg ho] at hul
          exact absurd hul (List.not_mem_nil u)

lemma runCrawl_sameOrigin (site : Site) (um : UrlModel) (origin tok : String)
    (doc : List RefAttr) (fuel : Nat) :
    SameOriginInv um.originOf origin
      (runCrawl site um.originOf origin tok
        (collectDoc um.resolve um.originOf origin doc) fuel) := by
  apply sameOrigin_loop
  apply sameOrigin_wave
  have hassets := collectDoc_sameOrigin um.resolve um.originOf origin doc
  refine ⟨fun u hu => ?_, fun u hu => absurd hu (List.not_mem_nil u),
    fun kv hkv => absurd hkv (List.not_mem_nil kv)⟩
  rcases mem_addUrls.mp hu with hu | hu
  · exact absurd hu (List.not_mem_nil u)
  · exact hassets u hu

lemma rewriteAttrPlain_miss (resolve : String → Option String) (m : List (String × String))
    (tok val abs : String) (hr : resolve val = some abs) (hl : lookupStr m abs = none) :
    rewriteAttrPlain resolve m tok val = val := by
  unfold rewriteAttrPlain
  simp only [hr, hl]

/-- C4 (amended): nothing off-origin is ever fetched (the fetch log of a
full run only holds same-origin URLs and so do the resolved keys); a plain
attribute whose value resolves off-origin is rewritten to itself; a srcset
attribute whose candidates all resolve off-origin keeps every candidate
URL part and descriptor, though the value is re-serialised exactly as the
empty-map rewrite does (trimmed candidates joined with comma-space). -/
theorem C4_same_origin :
    ∀ (site : Site) (um : UrlModel) (origin tok : String) (doc : List RefAttr) (fuel : Nat),
      (∀ u ∈ (runCrawl site um.originOf origin tok
          (collectDoc um.resolve um.originOf origin doc) fuel).fetchLog,
        um.originOf u = some origin)
      ∧ (∀ kv ∈ (runCrawl site um.originOf origin tok
          (collectDoc um.resolve um.originOf origin doc) fuel).resolved,
          um.originOf kv.1 = some origin)
      ∧ (∀ val abs : String, um.resolve val = some abs →
          um.originOf abs ≠ some origin →
          rewriteAttrPlain um.resolve
            (runCrawl site um.originOf origin tok
              (collectDoc um.resolve um.originOf origin doc) fuel).resolved tok val = val)
      ∧ (∀ val : String,
          (∀ e ∈ trimPieces val, ∀ abs : String,
            um.resolve ((wsTokens e).headD "") = some abs →
            um.originOf abs ≠ some origin) →
          rewriteSrcset um.resolve
            (runCrawl site um.originOf origin tok
              (collectDoc um.resolve um.originOf origin doc) fuel).resolved val
            = rewriteSrcset um.resolve [] val) := by
  intro site um origin tok doc fuel
  have hinv := runCrawl_sameOrigin site um origin tok doc fuel
  refine ⟨hinv.2.1, hinv.2.2, ?_, ?_⟩
  · intro val abs hr ho
    exact rewriteAttrPlain_miss um.resolve _ tok val abs hr
      (lookupStr_none_of_all (fun k => um.originOf k = some origin) hinv.2.2 ho)
  · intro val hval
    unfold rewriteSrcset
    congr 1
    apply List.map_congr_left
    intro e he
    simp only [rewriteSrcsetEntry]
    cases hr : um.resolve ((wsTokens e).headD "") with
    | none => simp only [hr]
    | some abs =>
      have hkey := lookupStr_none_of_all (fun k => um.originOf k = some origin) hinv.2.2
        (hval e he abs hr)
      simp only [hr, hkey]
      rfl

/-- C4 (witness): the amended theorem applied to the concrete run, on a
plain attribute resolving off-origin. -/
theorem C4_witness :
    rewriteAttrPlain cexUm.resolve
      (runCrawl cexSite cexUm.originOf "https://other.test" "s_test"
        (collectDoc cexUm.resolve cexUm.originOf "https://other.test" cexDoc) 5).resolved
      "s_test" "a.png" = "a.png" :=
  (C4_same_origin cexSite cexUm "https://other.test" "s_test" cexDoc 5).2.2.1
    "a.png" "https://s.test/a.png" (by decide) (by decide)

/-- oracle of an off-origin reference resolving to itself. -/
def cexUmOff : UrlModel :=
  ⟨fun s => if s = "https://other.test/x.png" then some "https://other.test/x.png" else none,
   fun u => if u = "https://other.test/x.png" then some "https://other.test" else none⟩

/-- the seed document with one srcset attribute holding one off-origin
candidate written with two spaces before its descriptor. -/
def cexDocOff : List RefAttr := [⟨AttrKind.srcset, "https://other.test/x.png  2x"⟩]

/-- the concrete off-origin run. -/
def cexRunOff : Except String RunOutcome :=
  runFull cexSite cexUmOff "https://s.test/" "https://s.test" "s.test" "" cexDocOff 5

/-- C4 (counterexample): the off-origin candidate is never fetched, yet
the rewritten srcset attribute does not equal its original value: the
rewrite loop re-serialises the candidate list, collapsing the double space
before the descriptor, so off-origin references are not left untouched
byte for byte. -/
theorem C4_counterexample :
    (cexRunOff.toOption.map fun o => o.state.fetchLog) = some []
    ∧ (cexRunOff.toOption.map RunOutcome.outDoc)
        = some [⟨AttrKind.srcset, "https://other.test/x.png 2x"⟩]
    ∧ (cexRunOff.toOption.map RunOutcome.outDoc)
        ≠ some [⟨AttrKind.srcset, "https://other.test/x.png  2x"⟩] := by
  refine ⟨by decide, by decide, by decide⟩

/-- invariant: every key of the resolved map fetched successfully. -/
def KeysFetched (site : Site) (st : CrawlState) : Prop :=
  ∀ kv ∈ st.resolved, site.fetch kv.1 ≠ none

lemma keysFetched_step (site : Site) (originOf : String → Option String)
    (origin hostTok : String) :
    ∀ (st : CrawlState) (u : String), KeysFetched site st →
      KeysFetched site (downloadOne site originOf origin hostTok st u) := by
  intro st u h
  by_cases hw : (lookupStr st.resolved u).isSome = true
  · rwa [downloadOne_skip site originOf origin hostTok st u hw]
  · have hw' : (lookupStr st.resolved u).isSome = false := by
      cases hs : (lookupStr st.resolved u).isSome
      · rfl
      · exact absurd hs hw
    cases hf : site.fetch u with
    | none =>
      rw [downloadOne_fail site originOf origin hostTok st u hw' hf]
      exact h
    | some p =>
      obtain ⟨ct, links⟩ := p
      rw [downloadOne_succ site originOf origin hostTok st u ct links hw' hf]
      have key : ∀ kv ∈ st.resolved ++ [(u, mapValue hostTok u ct)],
          site.fetch kv.1 ≠ none := by
        intro kv hkv
        rcases List.mem_append.mp hkv with hkv | hkv
        · exact h kv hkv
        · rcases List.mem_cons.mp hkv with rfl | hkv
          · rw [hf]
            simp
          · exact absurd hkv (List.not_mem_nil kv)
      by_cases hc : isCss ct
      · rw [if_pos hc]
        exact key
      · rw [if_neg hc]
        exact key

lemma runCrawl_keysFetched (site : Site) (originOf : String → Option String)
    (origin hostTok : String) (assets : List String) (fuel : Nat) :
    KeysFetched site (runCrawl site originOf origin hostTok assets fuel) :=
  runCrawl_preserve site originOf origin hostTok (KeysFetched site)
    (keysFetched_step site originOf origin hostTok) assets fuel
    (fun kv hkv => absurd hkv (List.not_mem_nil kv))

/-- C6: a seed fetch failure aborts the whole run with the reported error
and process exit 1; with the seed fetched, the run always completes with
exit 0 and yields an outcome, any URL whose own fetch fails is permanently
absent from the resolved map, and a plain attribute resolving to such a
URL is rewritten to itself (its reference stays unresolved in the saved
document). -/
theorem C6_failure_semantics :
    ∀ (site : Site) (um : UrlModel) (startUrl origin hostname scriptDir : String)
      (doc : List RefAttr) (fuel : Nat),
      (site.fetch startUrl = none →
        runFull site um startUrl origin hostname scriptDir doc fuel
            = Except.error "seed fetch failed"
        ∧ mainExit (runFull site um startUrl origin hostname scriptDir doc fuel) = 1)
      ∧ (∀ p : String × List String, site.fetch startUrl = some p →
          (∃ out : RunOutcome,
            runFull site um startUrl origin hostname scriptDir doc fuel = Except.ok out)
          ∧ mainExit (runFull site um startUrl origin hostname scriptDir doc fuel) = 0
          ∧ (∀ u : String, site.fetch u = none →
              lookupStr
                (getOk (runFull site um startUrl origin hostname scriptDir doc fuel)).state.resolved
                u = none)
          ∧ (∀ val abs : String, um.resolve val = some abs → site.fetch abs = none →
              rewriteAttrPlain um.resolve
                (getOk (runFull site um startUrl origin hostname scriptDir doc fuel)).state.resolved
                (hostTokenOf hostname) val = val)) := by
  intro site um startUrl origin hostname scriptDir doc fuel
  constructor
  · intro hf
    have he := runFull_seed_fail site um startUrl origin hostname scriptDir doc fuel hf
    exact ⟨he, by rw [he]; rfl⟩
  · intro p hf
    have he := runFull_seed_ok site um startUrl origin hostname scriptDir doc fuel p hf
    have hlooknone : ∀ u : String, site.fetch u = none →
        lookupStr
          (getOk (runFull site um startUrl origin hostname scriptDir doc fuel)).state.resolved
          u = none := by
      intro u hu
      rw [he]
      exact lookupStr_none_of_all (fun k => site.fetch k ≠ none)
        (runCrawl_keysFetched site um.originOf origin (hostTokenOf hostname)
          (collectDoc um.resolve um.originOf origin doc) fuel)
        (by simp [hu])
    refine ⟨⟨_, he⟩, by rw [he]; rfl, hlooknone, ?_⟩
    intro val abs hr hu
    exact rewriteAttrPlain_miss um.resolve _ (hostTokenOf hostname) val abs hr
      (hlooknone abs hu)

/-- C6 (witness): in the concrete run the failing asset b.png leaves no
map entry, its plain reference would stay unchanged, and the run exits 0,
while a seed-failing site exits 1. -/
theorem C6_witness :
    (∃ out : RunOutcome, cexRun = Except.ok out)
    ∧ mainExit cexRun = 0
    ∧ lookupStr (getOk cexRun).state.resolved "https://s.test/b.png" = none
    ∧ rewriteAttrPlain cexUm.resolve (getOk cexRun).state.resolved
        (hostTokenOf "s.test") "b.png" = "b.png"
    ∧ mainExit (runFull cexFailSite cexUm "https://s.test/" "https://s.test" "s.test" ""
        cexDoc 5) = 1 := by
  have T := C6_failure_semantics cexSite cexUm "https://s.test/" "https://s.test" "s.test" ""
    cexDoc 5
  have T2 := T.2 ("text/html", ([] : List String)) (by decide)
  have F := C6_failure_semantics cexFailSite cexUm "https://s.test/" "https://s.test" "s.test" ""
    cexDoc 5
  exact ⟨T2.1, T2.2.1, T2.2.2.1 "https://s.test/b.png" (by decide),
    T2.2.2.2 "b.png" "https://s.test/b.png" (by decide) (by decide),
    (F.1 (by decide)).2⟩

lemma dropWhile_head_not (p : Char → Bool) (l : List Char) :
    ∀ c, (l.dropWhile p).head? = some c → p c = false := by
  induction l with
  | nil => intro c hc; exact absurd hc (by simp)
  | cons a t ih =>
    intro c hc
    rw [List.dropWhile_cons] at hc
    by_cases ha : p a = true
    · rw [if_pos ha] at hc
      exact ih c hc
    · rw [if_neg ha] at hc
      simp only [List.head?_cons, Option.some_inj] at hc
      subst hc
      simpa using ha

lemma dropWhile_suffix_decomp (p : Char → Bool) (l : List Char) :
    ∃ pre, l = pre ++ l.dropWhile p :=
  ⟨l.takeWhile p, (List.takeWhile_append_dropWhile p l).symm⟩

lemma trimL_last (l : List Char) : ∀ c, (trimL l).getLast? = some c → isWs c = false := by
  intro c hc
  unfold trimL at hc
  rw [List.getLast?_reverse] at hc
  exact dropWhile_head_not isWs _ c hc

lemma trimL_head (l : List Char) : ∀ c, (trimL l).head? = some c → isWs c = false := by
  intro c hc
  unfold trimL at hc
  rw [List.head?_reverse] at hc
  set B := (l.dropWhile isWs).reverse.dropWhile isWs with hB
  cases hb : B with
  | nil => rw [hb] at hc; exact absurd hc (by simp)
  | cons x xs =>
    obtain ⟨pre, hpre⟩ := dropWhile_suffix_decomp isWs (l.dropWhile isWs).reverse
    rw [← hB, hb] at hpre
    have h2 : (l.dropWhile isWs).reverse.getLast? = some c := by
      rw [hpre, getLast?_append_right pre (x :: xs) (by simp), ← hb, hc]
    rw [List.getLast?_reverse] at h2
    exact dropWhile_head_not isWs l c h2

lemma trimL_idem (l : List Char) : trimL (trimL l) = trimL l :=
  trimL_eq_self (trimL l) (trimL_head l) (trimL_last l)

lemma trimL_subset (l : List Char) : trimL l ⊆ l := by
  intro x hx
  unfold trimL at hx
  rw [List.mem_reverse] at hx
  have h1 := List.Sublist.subset (List.dropWhile_sublist isWs) hx
  rw [List.mem_reverse] at h1
  exact (List.dropWhile_sublist isWs).subset h1

lemma splitCharL_chunks (c : Char) (l : List Char) :
    ∀ x ∈ splitCharL c l, c ∉ x := by
  induction l with
  | nil =>
    intro x hx
    rcases List.mem_cons.mp hx with rfl | hx
    · exact List.not_mem_nil c
    · exact absurd hx (List.not_mem_nil x)
  | cons a t ih =>
    intro x hx
    by_cases ha : (a == c) = true
    · have hae : a = c := by simpa using ha
      subst hae
      rw [splitCharL_cons_sep] at hx
      rcases List.mem_cons.mp hx with rfl | hx
      · exact List.not_mem_nil a
      · exact ih x hx
    · have hane : ¬ a = c := by simpa using ha
      cases hs : splitCharL c t with
      | nil => exact absurd hs (splitCharL_ne_nil c t)
      | cons h0 t0 =>
        rw [splitCharL_cons_ne c a t h0 t0 hane hs] at hx
        rcases List.mem_cons.mp hx with rfl | hx
        · intro hcm
          rcases List.mem_cons.mp hcm with he | hcm
          · exact hane he.symm
          · exact ih h0 (hs ▸ List.mem_cons_self h0 t0) hcm
        · exact ih x (hs ▸ List.mem_cons_of_mem h0 hx)

/-- every candidate entry of a srcset value is non-empty, comma-free and
trim-invariant. -/
lemma trimPieces_props (val : String) :
    ∀ e ∈ trimPieces val, e ≠ "" ∧ ',' ∉ e.data ∧ trimL e.data = e.data := by
  intro e he
  unfold trimPieces at he
  have hf := List.mem_filter.mp he
  have hne : e ≠ "" := by simpa using hf.2
  obtain ⟨x, hx, hxe⟩ := List.mem_map.mp hf.1
  obtain ⟨piece, hpiece, hpe⟩ := List.mem_map.mp hx
  subst hxe
  subst hpe
  refine ⟨hne, ?_, ?_⟩
  · intro hcm
    have h1 : ',' ∈ piece := trimL_subset piece (by simpa [jsTrim] using hcm)
    exact splitCharL_chunks ',' _ piece hpiece h1
  · show trimL (jsTrim ⟨piece⟩).data = (jsTrim ⟨piece⟩).data
    simp only [jsTrim]
    exact trimL_idem piece

lemma wsSplitAux_ne_nil (l acc : List Char) (hacc : acc ≠ []) :
    wsSplitAux l acc ≠ [] := by
  induction l generalizing acc with
  | nil =>
    rw [wsSplitAux_nil]
    have : acc.isEmpty = false := by simpa [List.isEmpty_iff] using hacc
    rw [this]
    simp
  | cons c rest ih =>
    rw [wsSplitAux_cons]
    by_cases hw : isWs c
    · rw [if_pos hw]
      have : acc.isEmpty = false := by simpa [List.isEmpty_iff] using hacc
      rw [this]
      simp
    · rw [if_neg hw]
      exact ih (c :: acc) (by simp)

/-- every token of the whitespace split is non-empty, whitespace-free, and
made of characters of the input or the accumulator. -/
lemma wsSplitAux_mem (l : List Char) :
    ∀ (acc : List Char), (∀ c ∈ acc, isWs c = false) →
      ∀ t ∈ wsSplitAux l acc,
        t ≠ [] ∧ ∀ ch ∈ t, isWs ch = false ∧ (ch ∈ l ∨ ch ∈ acc) := by
  induction l with
  | nil =>
    intro acc hacc t ht
    rw [wsSplitAux_nil] at ht
    by_cases he : acc.isEmpty
    · rw [if_pos he] at ht
      exact absurd ht (List.not_mem_nil t)
    · rw [if_neg he] at ht
      rcases List.mem_cons.mp ht with rfl | ht
      · refine ⟨by simpa [List.isEmpty_iff] using he, fun ch hch => ?_⟩
        rw [List.mem_reverse] at hch
        exact ⟨hacc ch hch, Or.inr hch⟩
      · exact absurd ht (List.not_mem_nil t)
  | cons c rest ih =>
    intro acc hacc t ht
    rw [wsSplitAux_cons] at ht
    by_cases hw : isWs c
    · rw [if_pos hw] at ht
      by_cases he : acc.isEmpty
      · rw [if_pos he] at ht
        obtain ⟨h1, h2⟩ := ih [] (by simp) t ht
        exact ⟨h1, fun ch hch => ⟨(h2 ch hch).1, by
          rcases (h2 ch hch).2 with hl | hl
          · exact Or.inl (List.mem_cons_of_mem c hl)
          · exact absurd hl (List.not_mem_nil ch)⟩⟩
      · rw [if_neg he] at ht
        rcases List.mem_cons.mp ht with rfl | ht
        · refine ⟨by simpa [List.isEmpty_iff] using he, fun ch hch => ?_⟩
          rw [List.mem_reverse] at hch
          exact ⟨hacc ch hch, Or.inr hch⟩
        · obtain ⟨h1, h2⟩ := ih [] (by simp) t ht
          exact ⟨h1, fun ch hch => ⟨(h2 ch hch).1, by
            rcases (h2 ch hch).2 with hl | hl
            · exact Or.inl (List.mem_cons_of_mem c hl)
            · exact absurd hl (List.not_mem_nil ch)⟩⟩
    · rw [if_neg hw] at ht
      have hacc2 : ∀ x ∈ c :: acc, isWs x = false := by
        intro x hx
        rcases List.mem_cons.mp hx with rfl | hx
        · cases hwc : isWs x
          · rfl
          · exact absurd hwc hw
        · exact hacc x hx
      obtain ⟨h1, h2⟩ := ih (c :: acc) hacc2 t ht
      refine ⟨h1, fun ch hch => ⟨(h2 ch hch).1, ?_⟩⟩
      rcases (h2 ch hch).2 with hl | hl
      · exact Or.inl (List.mem_cons_of_mem c hl)
      · rcases List.mem_cons.mp hl with rfl | hl
        · exact Or.inl (List.mem_cons_self ch rest)
        · exact Or.inr hl

/-- decomposition of the whitespace tokens of a non-empty trim-invariant
entry: there is a first token, and every token is non-empty,
whitespace-free and made of characters of the entry. -/
lemma wsTokens_head_props (e : String) (he1 : e ≠ "") (he3 : trimL e.data = e.data) :
    ∃ (u : String) (rest : List String),
      wsTokens e = u :: rest
      ∧ ∀ t ∈ u :: rest, t ≠ "" ∧ ∀ ch ∈ t.data, isWs ch = false ∧ ch ∈ e.data := by
  have hne : e.data ≠ [] := str_ne_empty_data he1
  obtain ⟨c, rest0, hcr⟩ := List.exists_cons_of_ne_nil hne
  have hcw : isWs c = false := by
    apply trimL_head e.data
    rw [he3, hcr]
    rfl
  have hsplit : wsSplitAux e.data [] = wsSplitAux rest0 [c] := by
    rw [hcr, wsSplitAux_cons, hcw]
    simp
  have hnn : wsSplitAux e.data [] ≠ [] := by
    rw [hsplit]
    exact wsSplitAux_ne_nil rest0 [c] (by simp)
  obtain ⟨t0, ts, hts⟩ := List.exists_cons_of_ne_nil hnn
  have hmem := wsSplitAux_mem e.data [] (by simp)
  refine ⟨⟨t0⟩, ts.map (fun l => (⟨l⟩ : String)), ?_, ?_⟩
  · unfold wsTokens
    rw [hts]
    rfl
  · intro t ht
    have ht2 : t ∈ (t0 :: ts).map (fun l => (⟨l⟩ : String)) := by
      rw [List.map_cons]
      exact ht
    obtain ⟨tl, htl, hte⟩ := List.mem_map.mp ht2
    subst hte
    have hp := hmem tl (hts ▸ htl)
    refine ⟨str_mk_ne_empty hp.1, fun ch hch => ?_⟩
    rcases (hp.2 ch hch).2 with h | h
    · exact ⟨(hp.2 ch hch).1, h⟩
    · exact absurd h (List.not_mem_nil ch)

/-- the replacement the srcset rewrite applies to a resolved URL part. -/
def entryRepl (m : List (String × String)) (u abs : String) : String :=
  match lookupStr m abs with
  | some loc => if loc = "" then u else loc
  | none => u

lemma entryRepl_miss {m : List (String × String)} (u : String) {abs : String}
    (hl : lookupStr m abs = none) : entryRepl m u abs = u := by
  unfold entryRepl
  simp only [hl]

lemma entryRepl_hit {m : List (String × String)} (u : String) {abs loc : String}
    (hl : lookupStr m abs = some loc) (hloc : loc ≠ "") : entryRepl m u abs = loc := by
  unfold entryRepl
  simp only [hl, if_neg hloc]

lemma entryRepl_hit_empty {m : List (String × String)} (u : String) {abs : String}
    (hl : lookupStr m abs = some "") : entryRepl m u abs = u := by
  unfold entryRepl
  simp [hl]

lemma srcsetEntry_eval_noresolve (resolve : String → Option String)
    (m : List (String × String)) (e u : String) (rest : List String)
    (htoks : wsTokens e = u :: rest) (hr : resolve u = none) :
    rewriteSrcsetEntry resolve m e = e := by
  simp only [rewriteSrcsetEntry]
  rw [htoks]
  simp only [List.headD_cons]
  rw [hr]

lemma srcsetEntry_eval_nil (resolve : String → Option String)
    (m : List (String × String)) (e u : String) (htoks : wsTokens e = [u])
    (abs : String) (hr : resolve u = some abs) :
    rewriteSrcsetEntry resolve m e = entryRepl m u abs := by
  simp only [rewriteSrcsetEntry]
  rw [htoks]
  simp only [List.headD_cons, List.get?_cons_succ, List.get?_nil, Option.getD_none]
  rw [hr]
  show entryRepl m u abs ++ (if ("" : String) = "" then "" else " " ++ "") = entryRepl m u abs
  rw [if_pos rfl, String.append_empty]

lemma srcsetEntry_eval_pair (resolve : String → Option String)
    (m : List (String × String)) (e u d : String) (rest : List String)
    (htoks : wsTokens e = u :: d :: rest) (hd : d ≠ "")
    (abs : String) (hr : resolve u = some abs) :
    rewriteSrcsetEntry resolve m e = entryRepl m u abs ++ " " ++ d := by
  simp only [rewriteSrcsetEntry]
  rw [htoks]
  simp only [List.headD_cons, List.get?_cons_succ, List.get?_cons_zero, Option.getD_some]
  rw [hr]
  show entryRepl m u abs ++ (if d = "" then "" else " " ++ d) = entryRepl m u abs ++ " " ++ d
  rw [if_neg hd, str_append_assoc]

/-- the three entry properties hold of a lone canonical token. -/
lemma token_props (u : String) (hu : NoWsComma u) :
    u ≠ "" ∧ ',' ∉ u.data ∧ trimL u.data = u.data := by
  refine ⟨hu.1, fun hc => (hu.2 ',' hc).2 rfl, ?_⟩
  apply trimL_eq_self
  · intro c hc
    exact (hu.2 c (List.mem_of_mem_head? hc)).1
  · intro c hc
    exact (hu.2 c (List.mem_of_mem_getLast? hc)).1

/-- idempotence of the srcset rewrite per entry: rewriting an already
rewritten canonical entry changes nothing, provided every map value is a
canonical token whose own resolution misses the map; the rewritten entry
stays non-empty, comma-free and trim-invariant. -/
lemma srcsetEntry_idem (resolve : String → Option String) (m : List (String × String))
    (Hm : ∀ kv ∈ m, NoWsComma kv.2
      ∧ ∀ abs2 : String, resolve kv.2 = some abs2 → lookupStr m abs2 = none)
    (e : String) (he : e ≠ "" ∧ ',' ∉ e.data ∧ trimL e.data = e.data) :
    rewriteSrcsetEntry resolve m (rewriteSrcsetEntry resolve m e)
        = rewriteSrcsetEntry resolve m e
    ∧ (rewriteSrcsetEntry resolve m e ≠ ""
        ∧ ',' ∉ (rewriteSrcsetEntry resolve m e).data
        ∧ trimL (rewriteSrcsetEntry resolve m e).data
            = (rewriteSrcsetEntry resolve m e).data) := by
  obtain ⟨u, rest, htoks, hprops⟩ := wsTokens_head_props e he.1 he.2.2
  have hu := hprops u (List.mem_cons_self u rest)
  have huNWC : NoWsComma u :=
    ⟨hu.1, fun c hc => ⟨(hu.2 c hc).1, fun hee => he.2.1 (hee ▸ (hu.2 c hc).2)⟩⟩
  cases hr : resolve u with
  | none =>
    have h1 : rewriteSrcsetEntry resolve m e = e :=
      srcsetEntry_eval_noresolve resolve m e u rest htoks hr
    refine ⟨?_, ?_⟩
    · rw [h1]
      exact h1
    · rw [h1]
      exact he
  | some abs =>
    have hvNWC : NoWsComma (entryRepl m u abs) := by
      cases hl : lookupStr m abs with
      | none => rw [entryRepl_miss u hl]; exact huNWC
      | some loc =>
        by_cases hle : loc = ""
        · subst hle
          rw [entryRepl_hit_empty u hl]
          exact huNWC
        · rw [entryRepl_hit u hl hle]
          exact (Hm (abs, loc) (lookupStr_mem hl)).1
    cases rest with
    | nil =>
      have h1 : rewriteSrcsetEntry resolve m e = entryRepl m u abs :=
        srcsetEntry_eval_nil resolve m e u htoks abs hr
      refine ⟨?_, ?_⟩
      · rw [h1]
        have htoks2 : wsTokens (entryRepl m u abs) = [entryRepl m u abs] :=
          wsTokens_token _ hvNWC
        cases hl : lookupStr m abs with
        | none =>
          rw [entryRepl_miss u hl] at htoks2 ⊢
          rw [srcsetEntry_eval_nil resolve m u u htoks2 abs hr, entryRepl_miss u hl]
        | some loc =>
          by_cases hle : loc = ""
          · subst hle
            rw [entryRepl_hit_empty u hl] at htoks2 ⊢
            rw [srcsetEntry_eval_nil resolve m u u htoks2 abs hr, entryRepl_hit_empty u hl]
          · rw [entryRepl_hit u hl hle] at htoks2 ⊢
            cases hr2 : resolve loc with
            | none => exact srcsetEntry_eval_noresolve resolve m loc loc [] htoks2 hr2
            | some abs2 =>
              have hl2 : lookupStr m abs2 = none :=
                (Hm (abs, loc) (lookupStr_mem hl)).2 abs2 hr2
              rw [srcsetEntry_eval_nil resolve m loc loc htoks2 abs2 hr2,
                entryRepl_miss loc hl2]
      · rw [h1]
        exact token_props _ hvNWC
    | cons d ds =>
      have hd := hprops d (List.mem_cons_of_mem u (List.mem_cons_self d ds))
      have hdNWC : NoWsComma d :=
        ⟨hd.1, fun c hc => ⟨(hd.2 c hc).1, fun hee => he.2.1 (hee ▸ (hd.2 c hc).2)⟩⟩
      have h1 : rewriteSrcsetEntry resolve m e = entryRepl m u abs ++ " " ++ d :=
        srcsetEntry_eval_pair resolve m e u d ds htoks hd.1 abs hr
      refine ⟨?_, ?_⟩
      · rw [h1]
        have htoks2 : wsTokens (entryRepl m u abs ++ " " ++ d) = [entryRepl m u abs, d] :=
          wsTokens_pair _ d hvNWC hdNWC
        cases hl : lookupStr m abs with
        | none =>
          rw [entryRepl_miss u hl] at htoks2 ⊢
          rw [srcsetEntry_eval_pair resolve m (u ++ " " ++ d) u d [] htoks2 hd.1 abs hr,
            entryRepl_miss u hl]
        | some loc =>
          by_cases hle : loc = ""
          · subst hle
            rw [entryRepl_hit_empty u hl] at htoks2 ⊢
            rw [srcsetEntry_eval_pair resolve m (u ++ " " ++ d) u d [] htoks2 hd.1 abs hr,
              entryRepl_hit_empty u hl]
          · rw [entryRepl_hit u hl hle] at htoks2 ⊢
            cases hr2 : resolve loc with
            | none =>
              exact srcsetEntry_eval_noresolve resolve m (loc ++ " " ++ d) loc [d] htoks2 hr2
            | some abs2 =>
              have hl2 : lookupStr m abs2 = none :=
                (Hm (abs, loc) (lookupStr_mem hl)).2 abs2 hr2
              rw [srcsetEntry_eval_pair resolve m (loc ++ " " ++ d) loc d [] htoks2
                hd.1 abs2 hr2, entryRepl_miss loc hl2]
      · rw [h1]
        exact entry_props _ d hvNWC hdNWC

lemma rewriteAttrPlain_noresolve (resolve : String → Option String)
    (m : List (String × String)) (tok val : String) (hr : resolve val = none) :
    rewriteAttrPlain resolve m tok val = val := by
  unfold rewriteAttrPlain
  simp only [hr]

lemma rewriteAttrPlain_hit (resolve : String → Option String)
    (m : List (String × String)) (tok val abs loc : String)
    (hr : resolve val = some abs) (hl : lookupStr m abs = some loc) (hloc : loc ≠ "") :
    rewriteAttrPlain resolve m tok val = "./" ++ posixRelative tok loc := by
  unfold rewriteAttrPlain
  simp only [hr, hl, if_neg hloc]

lemma rewriteAttrPlain_hit_empty (resolve : String → Option String)
    (m : List (String × String)) (tok val abs : String)
    (hr : resolve val = some abs) (hl : lookupStr m abs = some "") :
    rewriteAttrPlain resolve m tok val = val := by
  unfold rewriteAttrPlain
  simp [hr, hl]

lemma joinCS_ne_empty (l : List String) (hne : l ≠ []) (hall : ∀ p ∈ l, p ≠ "") :
    joinCommaSpace l ≠ "" := by
  cases l with
  | nil => exact absurd rfl hne
  | cons x t =>
    cases t with
    | nil => exact hall x (List.mem_cons_self x [])
    | cons y ys =>
      rw [joinCommaSpace_cons2]
      exact str_append_ne_empty_left _
        (str_append_ne_empty_left _ (hall x (List.mem_cons_self x _)))

lemma rewriteAttr_plain_eq (resolve : String → Option String)
    (m : List (String × String)) (tok v : String) (hv : v ≠ "") :
    rewriteAttr resolve m tok ⟨AttrKind.plain, v⟩
      = ⟨AttrKind.plain, rewriteAttrPlain resolve m tok v⟩ := by
  unfold rewriteAttr
  rw [if_neg hv]

lemma rewriteAttr_srcset_eq (resolve : String → Option String)
    (m : List (String × String)) (tok v : String) (hv : v ≠ "") :
    rewriteAttr resolve m tok ⟨AttrKind.srcset, v⟩
      = ⟨AttrKind.srcset, rewriteSrcset resolve m v⟩ := by
  unfold rewriteAttr
  rw [if_neg hv]

lemma rewriteAttr_empty (resolve : String → Option String)
    (m : List (String × String)) (tok : String) (a : RefAttr) (hv : a.val = "") :
    rewriteAttr resolve m tok a = a := by
  unfold rewriteAttr
  rw [if_pos hv]

/-- idempotence of the rewrite on one attribute, under the side condition
that every map value is a canonical token and that neither a map value nor
its dot-slash relativised form re-resolves to a key of the map. -/
lemma rewriteAttr_idem (resolve : String → Option String) (m : List (String × String))
    (tok : String)
    (Hm : ∀ kv ∈ m, NoWsComma kv.2
      ∧ (∀ abs2 : String, resolve kv.2 = some abs2 → lookupStr m abs2 = none)
      ∧ (∀ abs2 : String, resolve ("./" ++ posixRelative tok kv.2) = some abs2 →
          lookupStr m abs2 = none))
    (a : RefAttr) :
    rewriteAttr resolve m tok (rewriteAttr resolve m tok a)
      = rewriteAttr resolve m tok a := by
  have Hm2 : ∀ kv ∈ m, NoWsComma kv.2
      ∧ ∀ abs2 : String, resolve kv.2 = some abs2 → lookupStr m abs2 = none :=
    fun kv hkv => ⟨(Hm kv hkv).1, (Hm kv hkv).2.1⟩
  obtain ⟨k, v⟩ := a
  by_cases hv : v = ""
  · subst hv
    have h1 := rewriteAttr_empty resolve m tok ⟨k, ""⟩ rfl
    rw [h1, h1]
  · cases k with
    | plain =>
      rw [rewriteAttr_plain_eq resolve m tok v hv]
      cases hr : resolve v with
      | none =>
        have hp : rewriteAttrPlain resolve m tok v = v :=
          rewriteAttrPlain_noresolve resolve m tok v hr
        rw [hp, rewriteAttr_plain_eq resolve m tok v hv, hp]
      | some abs =>
        cases hl : lookupStr m abs with
        | none =>
          have hp : rewriteAttrPlain resolve m tok v = v :=
            rewriteAttrPlain_miss resolve m tok v abs hr hl
          rw [hp, rewriteAttr_plain_eq resolve m tok v hv, hp]
        | some loc =>
          by_cases hle : loc = ""
          · subst hle
            have hp : rewriteAttrPlain resolve m tok v = v :=
              rewriteAttrPlain_hit_empty resolve m tok v abs hr hl
            rw [hp, rewriteAttr_plain_eq resolve m tok v hv, hp]
          · have hp : rewriteAttrPlain resolve m tok v = "./" ++ posixRelative tok loc :=
              rewriteAttrPlain_hit resolve m tok v abs loc hr hl hle
            rw [hp]
            have hpne : "./" ++ posixRelative tok loc ≠ "" :=
              str_append_ne_empty_left _ (by decide)
            rw [rewriteAttr_plain_eq resolve m tok _ hpne]
            cases hr2 : resolve ("./" ++ posixRelative tok loc) with
            | none => rw [rewriteAttrPlain_noresolve resolve m tok _ hr2]
            | some abs2 =>
              have hl2 : lookupStr m abs2 = none :=
                (Hm (abs, loc) (lookupStr_mem hl)).2.2 abs2 hr2
              rw [rewriteAttrPlain_miss resolve m tok _ abs2 hr2 hl2]
    | srcset =>
      rw [rewriteAttr_srcset_eq resolve m tok v hv]
      by_cases hp : trimPieces v = []
      · have hempty : rewriteSrcset resolve m v = "" := by
          unfold rewriteSrcset
          rw [hp]
          rfl
        rw [hempty]
        exact rewriteAttr_empty resolve m tok ⟨AttrKind.srcset, ""⟩ rfl
      · have hprops : ∀ e ∈ trimPieces v, e ≠ "" ∧ ',' ∉ e.data ∧ trimL e.data = e.data :=
          trimPieces_props v
      -- the rewritten candidates keep the three entry properties
        have hout : ∀ p ∈ (trimPieces v).map (rewriteSrcsetEntry resolve m),
            p ≠ "" ∧ ',' ∉ p.data ∧ trimL p.data = p.data := by
          intro p hpmem
          obtain ⟨e, hemem, hpe⟩ := List.mem_map.mp hpmem
          subst hpe
          exact (srcsetEntry_idem resolve m Hm2 e (hprops e hemem)).2
        have houtne : (trimPieces v).map (rewriteSrcsetEntry resolve m) ≠ [] := by
          intro hc
          exact hp (List.map_eq_nil_iff.mp hc)
        have hv1ne : rewriteSrcset resolve m v ≠ "" := by
          unfold rewriteSrcset
          exact joinCS_ne_empty _ houtne (fun p hpm => (hout p hpm).1)
        rw [rewriteAttr_srcset_eq resolve m tok _ hv1ne]
        have hsplit2 : trimPieces (rewriteSrcset resolve m v)
            = (trimPieces v).map (rewriteSrcsetEntry resolve m) := by
          unfold rewriteSrcset
          exact trimPieces_joinCS _ houtne hout
        have hstep : ∀ X : String, rewriteSrcset resolve m X
            = joinCommaSpace ((trimPieces X).map (rewriteSrcsetEntry resolve m)) :=
          fun X => rfl
        have hmapeq : (trimPieces v).map
              (rewriteSrcsetEntry resolve m ∘ rewriteSrcsetEntry resolve m)
            = (trimPieces v).map (rewriteSrcsetEntry resolve m) := by
          apply List.map_congr_left
          intro e hemem
          exact (srcsetEntry_idem resolve m Hm2 e (hprops e hemem)).1
        have : rewriteSrcset resolve m (rewriteSrcset resolve m v)
            = rewriteSrcset resolve m v := by
          rw [hstep (rewriteSrcset resolve m v), hsplit2, List.map_map, hmapeq]
          exact (hstep v).symm
        rw [this]

/-- C5 (amended): the rewrite pass is idempotent for every document and
every attribute kind, provided every ResolvedMap value is a canonical
whitespace- and comma-free token and neither a stored value nor its
dot-slash relativised form re-resolves against the start URL to a key of
the map (the specification's already-rewritten-values-fail-to-resolve
reading); without that proviso a second pass can rewrite again. -/
theorem C5_rewrite_idempotent (resolve : String → Option String)
    (m : List (String × String)) (tok : String)
    (Hm : ∀ kv ∈ m, NoWsComma kv.2
      ∧ (∀ abs2 : String, resolve kv.2 = some abs2 → lookupStr m abs2 = none)
      ∧ (∀ abs2 : String, resolve ("./" ++ posixRelative tok kv.2) = some abs2 →
          lookupStr m abs2 = none))
    (doc : List RefAttr) :
    rewriteDoc resolve m tok (rewriteDoc resolve m tok doc)
      = rewriteDoc resolve m tok doc := by
  unfold rewriteDoc
  rw [List.map_map]
  apply List.map_congr_left
  intro a _
  exact rewriteAttr_idem resolve m tok Hm a

/-- C5 (witness): the amended idempotence applied to the concrete map of
the concrete run and a document with both attribute kinds. -/
theorem C5_witness :
    rewriteDoc cexResolve [("https://s.test/a.png", "s_test/img/a.png")] "s_test"
        (rewriteDoc cexResolve [("https://s.test/a.png", "s_test/img/a.png")] "s_test"
          [⟨AttrKind.srcset, "a.png 1x, b.png 2x"⟩, ⟨AttrKind.plain, "a.png"⟩])
      = rewriteDoc cexResolve [("https://s.test/a.png", "s_test/img/a.png")] "s_test"
          [⟨AttrKind.srcset, "a.png 1x, b.png 2x"⟩, ⟨AttrKind.plain, "a.png"⟩] := by
  apply C5_rewrite_idempotent
  intro kv hkv
  rcases List.mem_cons.mp hkv with rfl | hkv
  · refine ⟨by decide, fun abs2 h => ?_, fun abs2 h => ?_⟩
    · have hz : cexResolve "s_test/img/a.png" = none := by decide
      rw [hz] at h
      exact absurd h (by simp)
    · have hz : cexResolve ("./" ++ posixRelative "s_test" "s_test/img/a.png") = none := by
        decide
      rw [hz] at h
      exact absurd h (by simp)
  · exact absurd hkv (List.not_mem_nil kv)

/-- resolution oracle under which an already-rewritten local path
re-resolves to a different key of the map. -/
def cexResolve5 : String → Option String := fun s =>
  if s = "x.css" then some "https://s.test/x.css"
  else if s = "./css/x.css" then some "https://s.test/css/x.css"
  else none

/-- a map holding both keys with different local paths. -/
def cexMap5 : List (String × String) :=
  [("https://s.test/x.css", "s_test/css/x.css"),
   ("https://s.test/css/x.css", "s_test/assets/x")]

/-- C5 (counterexample): with a fixed ResolvedMap holding entries for both
the original URL and the URL the rewritten relative path resolves to, the
first pass rewrites x.css to ./css/x.css and the second pass rewrites that
again to ./assets/x, so running the Rewriter twice does not equal running
it once. -/
theorem C5_counterexample :
    rewriteDoc cexResolve5 cexMap5 "s_test" [⟨AttrKind.plain, "x.css"⟩]
        = [⟨AttrKind.plain, "./css/x.css"⟩]
    ∧ rewriteDoc cexResolve5 cexMap5 "s_test"
        (rewriteDoc cexResolve5 cexMap5 "s_test" [⟨AttrKind.plain, "x.css"⟩])
        = [⟨AttrKind.plain, "./assets/x"⟩]
    ∧ rewriteDoc cexResolve5 cexMap5 "s_test"
        (rewriteDoc cexResolve5 cexMap5 "s_test" [⟨AttrKind.plain, "x.css"⟩])
      ≠ rewriteDoc cexResolve5 cexMap5 "s_test" [⟨AttrKind.plain, "x.css"⟩] := by
  refine ⟨by decide, by decide, by decide⟩

/-- the finite URL universe is closed under same-origin style-sheet
discovery: anything extracted from a member's style sheet stays inside. -/
def ClosedUnder (site : Site) (originOf : String → Option String) (origin : String)
    (U : List String) : Prop :=
  ∀ u ∈ U, ∀ v ∈ (match site.fetch u with
    | some (_, links) => sameOriginFilter originOf origin links
    | none => []), v ∈ U

/-- well-formedness of the pending set with respect to the universe. -/
def GoodSt (U : List String) (st : CrawlState) : Prop :=
  st.toDownload.Nodup ∧ ∀ u ∈ st.toDownload, u ∈ U

/-- completion: every pending URL whose fetch succeeds is resolved. -/
def DoneSt (site : Site) (st : CrawlState) : Prop :=
  ∀ u ∈ st.toDownload, site.fetch u ≠ none → (lookupStr st.resolved u).isSome = true

/-- discovery invariant: the same-origin links of every resolved style
sheet are already pending. -/
def LinksInv (site : Site) (originOf : String → Option String) (origin : String)
    (st : CrawlState) : Prop :=
  ∀ (u ct : String) (links : List String), site.fetch u = some (ct, links) →
    (lookupStr st.resolved u).isSome = true → isCss ct = true →
    ∀ v ∈ sameOriginFilter originOf origin links, v ∈ st.toDownload

lemma nodup_length_le {l u : List String} (hn : l.Nodup) (hs : ∀ x ∈ l, x ∈ u) :
    l.length ≤ u.length := by
  calc l.length = l.toFinset.card := (List.toFinset_card_of_nodup hn).symm
  _ ≤ u.toFinset.card :=
      Finset.card_le_card (fun x hx => List.mem_toFinset.mpr (hs x (List.mem_toFinset.mp hx)))
  _ ≤ u.length := u.toFinset_card_le

lemma goodSt_step (site : Site) (originOf : String → Option String)
    (origin hostTok : String) (U : List String)
    (HU : ClosedUnder site originOf origin U) (st : CrawlState) (u : String)
    (hu : u ∈ U) (h : GoodSt U st) :
    GoodSt U (downloadOne site originOf origin hostTok st u) := by
  by_cases hw : (lookupStr st.resolved u).isSome = true
  · rwa [downloadOne_skip site originOf origin hostTok st u hw]
  · have hw' : (lookupStr st.resolved u).isSome = false := by
      cases hs : (lookupStr st.resolved u).isSome
      · rfl
      · exact absurd hs hw
    cases hf : site.fetch u with
    | none =>
      rw [downloadOne_fail site originOf origin hostTok st u hw' hf]
      exact h
    | some p =>
      obtain ⟨ct, links⟩ := p
      rw [downloadOne_succ site originOf origin hostTok st u ct links hw' hf]
      by_cases hc : isCss ct
      · rw [if_pos hc]
        have hlinks : ∀ v ∈ sameOriginFilter originOf origin links, v ∈ U := by
          have h2 := HU u hu
          simp only [hf] at h2
          exact h2
        refine ⟨nodup_addUrls _ h.1, fun v hv => ?_⟩
        rcases mem_addUrls.mp hv with hv | hv
        · exact h.2 v hv
        · exact hlinks v hv
      · rw [if_neg hc]
        exact h

lemma goodSt_foldl (site : Site) (originOf : String → Option String)
    (origin hostTok : String) (U : List String)
    (HU : ClosedUnder site originOf origin U) :
    ∀ (l : List String) (st : CrawlState), (∀ u ∈ l, u ∈ U) → GoodSt U st →
      GoodSt U (l.foldl (downloadOne site originOf origin hostTok) st) := by
  intro l
  induction l with
  | nil => exact fun st _ h => h
  | cons u t ih =>
    intro st hl h
    exact ih (downloadOne site originOf origin hostTok st u)
      (fun v hv => hl v (List.mem_cons_of_mem u hv))
      (goodSt_step site originOf origin hostTok U HU st u (hl u (List.mem_cons_self u t)) h)

lemma goodSt_wave (site : Site) (originOf : String → Option String)
    (origin hostTok : String) (U : List String)
    (HU : ClosedUnder site originOf origin U) (st : CrawlState) (h : GoodSt U st) :
    GoodSt U (wave site originOf origin hostTok st) :=
  goodSt_foldl site originOf origin hostTok U HU st.toDownload st h.2 h

lemma step_resolves (site : Site) (originOf : String → Option String)
    (origin hostTok : String) (st : CrawlState) (w : String)
    (hsucc : site.fetch w ≠ none) :
    (lookupStr (downloadOne site originOf origin hostTok st w).resolved w).isSome = true := by
  by_cases hw : (lookupStr st.resolved w).isSome = true
  · rwa [downloadOne_skip site originOf origin hostTok st w hw]
  · have hw' : (lookupStr st.resolved w).isSome = false := by
      cases hs : (lookupStr st.resolved w).isSome
      · rfl
      · exact absurd hs hw
    have hwnone : lookupStr st.resolved w = none := by
      cases hs : lookupStr st.resolved w
      · rfl
      · rw [hs] at hw'
        exact absurd hw' (by simp)
    cases hf : site.fetch w with
    | none => exact absurd hf hsucc
    | some p =>
      obtain ⟨ct, links⟩ := p
      rw [downloadOne_succ site originOf origin hostTok st w ct links hw' hf]
      have hres : lookupStr (st.resolved ++ [(w, mapValue hostTok w ct)]) w
          = some (mapValue hostTok w ct) := by
        rw [lookupStr_append_single w _ hwnone, if_pos rfl]
      by_cases hc : isCss ct
      · rw [if_pos hc]
        show (lookupStr (st.resolved ++ [(w, mapValue hostTok w ct)]) w).isSome = true
        rw [hres]
        rfl
      · rw [if_neg hc]
        show (lookupStr (st.resolved ++ [(w, mapValue hostTok w ct)]) w).isSome = true
        rw [hres]
        rfl

lemma foldl_resolves (site : Site) (originOf : String → Option String)
    (origin hostTok : String) :
    ∀ (l : List String) (st : CrawlState) (u : String), u ∈ l → site.fetch u ≠ none →
      (lookupStr ((l.foldl (downloadOne site originOf origin hostTok) st).resolved) u).isSome
        = true := by
  intro l
  induction l with
  | nil => intro st u hu; exact absurd hu (List.not_mem_nil u)
  | cons w t ih =>
    intro st u hu hsucc
    rcases List.mem_cons.mp hu with rfl | hut
    · have h1 := step_resolves site originOf origin hostTok st u hsucc
      obtain ⟨t2, ht2⟩ :=
        (foldl_stExtends site originOf origin hostTok t
          (downloadOne site originOf origin hostTok st u)).2.1
      show (lookupStr ((t.foldl (downloadOne site originOf origin hostTok)
        (downloadOne site originOf origin hostTok st u)).resolved) u).isSome = true
      rw [ht2]
      exact lookupStr_isSome_extends h1
    · exact ih (downloadOne site originOf origin hostTok st w) u hut hsucc

lemma linksInv_step (site : Site) (originOf : String → Option String)
    (origin hostTok : String) (st : CrawlState) (w : String)
    (h : LinksInv site originOf origin st) :
    LinksInv site originOf origin (downloadOne site originOf origin hostTok st w) := by
  by_cases hw : (lookupStr st.resolved w).isSome = true
  · rwa [downloadOne_skip site originOf origin hostTok st w hw]
  · have hw' : (lookupStr st.resolved w).isSome = false := by
      cases hs : (lookupStr st.resolved w).isSome
      · rfl
      · exact absurd hs hw
    have hwnone : lookupStr st.resolved w = none := by
      cases hs : lookupStr st.resolved w
      · rfl
      · rw [hs] at hw'
        exact absurd hw' (by simp)
    cases hf : site.fetch w with
    | none =>
      rw [downloadOne_fail site originOf origin hostTok st w hw' hf]
      exact h
    | some p =>
      obtain ⟨ctw, linksw⟩ := p
      rw [downloadOne_succ site originOf origin hostTok st w ctw linksw hw' hf]
      have hcase : ∀ (u ct : String) (links : List String),
          site.fetch u = some (ct, links) →
          (lookupStr (st.resolved ++ [(w, mapValue hostTok w ctw)]) u).isSome = true →
          (lookupStr st.resolved u).isSome = true ∨ (u = w ∧ ct = ctw ∧ links = linksw) := by
        intro u ct links hfu hres
        cases hold : lookupStr st.resolved u with
        | some v => exact Or.inl (by simp [hold])
        | none =>
          rw [lookupStr_append_single w _ hold] at hres
          by_cases huw : w = u
          · subst huw
            rw [hfu] at hf
            obtain ⟨h1, h2⟩ := Prod.mk.injEq _ _ _ _ ▸ Option.some_inj.mp hf
            exact Or.inr ⟨rfl, h1, h2⟩
          · rw [if_neg huw] at hres
            exact absurd hres (by simp)
      by_cases hc : isCss ctw
      · rw [if_pos hc]
        intro u ct links hfu hres hcss v hv
        rcases hcase u ct links hfu hres with hold | ⟨rfl, rfl, rfl⟩
        · exact mem_addUrls.mpr (Or.inl (h u ct links hfu hold hcss v hv))
        · exact mem_addUrls.mpr (Or.inr hv)
      · rw [if_neg hc]
        intro u ct links hfu hres hcss v hv
        rcases hcase u ct links hfu hres with hold | ⟨rfl, rfl, rfl⟩
        · exact h u ct links hfu hold hcss v hv
        · exact absurd hcss hc

instance (site : Site) (originOf : String → Option String) (origin : String)
    (U : List String) : Decidable (ClosedUnder site originOf origin U) := by
  unfold ClosedUnder
  infer_instance

lemma crawlLoop_succ (site : Site) (originOf : String → Option String)
    (origin hostTok : String) (n prev : Nat) (st : CrawlState) :
    crawlLoop site originOf origin hostTok (n + 1) prev st
      = if st.toDownload.length = prev then st
        else crawlLoop site originOf origin hostTok n st.toDownload.length
          (wave site originOf origin hostTok st) := rfl

lemma goodSt_loop (site : Site) (originOf : String → Option String)
    (origin hostTok : String) (U : List String)
    (HU : ClosedUnder site originOf origin U) :
    ∀ (fuel prev : Nat) (st : CrawlState), GoodSt U st →
      GoodSt U (crawlLoop site originOf origin hostTok fuel prev st) := by
  intro fuel
  induction fuel with
  | zero => exact fun prev st h => h
  | succ n ih =>
    intro prev st h
    rw [crawlLoop_succ]
    by_cases hc : st.toDownload.length = prev
    · rw [if_pos hc]
      exact h
    · rw [if_neg hc]
      exact ih st.toDownload.length _ (goodSt_wave site originOf origin hostTok U HU st h)

lemma crawlLoop_done (site : Site) (originOf : String → Option String)
    (origin hostTok : String) (U : List String)
    (HU : ClosedUnder site originOf origin U) :
    ∀ (f prev : Nat) (st : CrawlState),
      GoodSt U st → LinksInv site originOf origin st →
      (∃ sp : CrawlState, st = wave site originOf origin hostTok sp
        ∧ (prev = sp.toDownload.length ∨ prev = 0)) →
      U.length + 1 ≤ f + prev → prev ≤ st.toDownload.length →
      DoneSt site (crawlLoop site originOf origin hostTok f prev st)
      ∧ LinksInv site originOf origin (crawlLoop site originOf origin hostTok f prev st)
      ∧ GoodSt U (crawlLoop site originOf origin hostTok f prev st) := by
  intro f
  induction f with
  | zero =>
    intro prev st hgood hlinks hpw harith hple
    exfalso
    have hb := nodup_length_le hgood.1 hgood.2
    omega
  | succ n ih =>
    intro prev st hgood hlinks hpw harith hple
    rw [crawlLoop_succ]
    by_cases hc : st.toDownload.length = prev
    · rw [if_pos hc]
      refine ⟨?_, hlinks, hgood⟩
      rcases hpw with ⟨sp, hspw, hval⟩
      rcases hval with hpl | hp0
      · have hext : Extends sp.toDownload st.toDownload := by
          rw [hspw]
          exact (wave_stExtends site originOf origin hostTok sp).1
        have heq : st.toDownload = sp.toDownload := extends_eq_of_length hext (by omega)
        intro u hu hsucc
        have husp : u ∈ sp.toDownload := heq ▸ hu
        rw [hspw]
        exact foldl_resolves site originOf origin hostTok sp.toDownload sp u husp hsucc
      · have hnil : st.toDownload = [] := List.eq_nil_of_length_eq_zero (by omega)
        intro u hu hsucc
        rw [hnil] at hu
        exact absurd hu (List.not_mem_nil u)
    · rw [if_neg hc]
      apply ih
      · exact goodSt_wave site originOf origin hostTok U HU st hgood
      · exact foldl_preserve site originOf origin hostTok (LinksInv site originOf origin)
          (linksInv_step site originOf origin hostTok) st.toDownload st hlinks
      · exact ⟨st, rfl, Or.inl rfl⟩
      · omega
      · exact extends_length (wave_stExtends site originOf origin hostTok st).1

lemma crawlLoop_fuel_stable (site : Site) (originOf : String → Option String)
    (origin hostTok : String) (U : List String)
    (HU : ClosedUnder site originOf origin U) :
    ∀ (f extra prev : Nat) (st : CrawlState),
      GoodSt U st → prev ≤ st.toDownload.length → U.length + 1 ≤ f + prev →
      crawlLoop site originOf origin hostTok (f + extra) prev st
        = crawlLoop site originOf origin hostTok f prev st := by
  intro f
  induction f with
  | zero =>
    intro extra prev st hgood hple harith
    exfalso
    have hb := nodup_length_le hgood.1 hgood.2
    omega
  | succ n ih =>
    intro extra prev st hgood hple harith
    have hadd : n + 1 + extra = (n + extra) + 1 := by omega
    rw [hadd, crawlLoop_succ, crawlLoop_succ]
    by_cases hc : st.toDownload.length = prev
    · rw [if_pos hc, if_pos hc]
    · rw [if_neg hc, if_neg hc]
      apply ih
      · exact goodSt_wave site originOf origin hostTok U HU st hgood
      · exact extends_length (wave_stExtends site originOf origin hostTok st).1
      · omega

/-- reachability through chains of fetched same-origin style sheets,
starting from the collected seed assets. -/
inductive Reaches (site : Site) (originOf : String → Option String) (origin : String)
    (assets : List String) : String → Prop
  | init (u : String) : u ∈ assets → Reaches site originOf origin assets u
  | css (u v ct : String) (links : List String) :
      Reaches site originOf origin assets u →
      site.fetch u = some (ct, links) → isCss ct = true →
      v ∈ sameOriginFilter originOf origin links →
      Reaches site originOf origin assets v

/-- C3: over a finite same-origin universe closed under style-sheet
discovery, the wave loop terminates - with fuel one past the universe
size the result is stable under any extra fuel, the loop having exited on
a wave that added nothing - and, when every fetch succeeds, every asset
reachable from the seed assets through chains of fetched style sheets has
an entry in the resolved map. -/
theorem C3_fixpoint_reachable :
    ∀ (site : Site) (originOf : String → Option String) (origin hostTok : String)
      (U assets : List String),
      ClosedUnder site originOf origin U →
      (∀ u ∈ assets, u ∈ U) →
      (∀ u ∈ U, site.fetch u ≠ none) →
      (∀ extra : Nat,
        runCrawl site originOf origin hostTok assets (U.length + 1 + extra)
          = runCrawl site originOf origin hostTok assets (U.length + 1))
      ∧ ∀ u : String, Reaches site originOf origin assets u →
          (lookupStr (runCrawl site originOf origin hostTok assets
            (U.length + 1)).resolved u).isSome = true := by
  intro site originOf origin hostTok U assets HU Hinit Hsucc
  have hst0 : GoodSt U (initState assets) := by
    refine ⟨nodup_addUrls assets List.nodup_nil, fun u hu => ?_⟩
    rcases mem_addUrls.mp hu with h | h
    · exact absurd h (List.not_mem_nil u)
    · exact Hinit u h
  have hW : GoodSt U (wave site originOf origin hostTok (initState assets)) :=
    goodSt_wave site originOf origin hostTok U HU _ hst0
  constructor
  · intro extra
    exact crawlLoop_fuel_stable site originOf origin hostTok U HU (U.length + 1) extra 0 _
      hW (Nat.zero_le _) (by omega)
  · have hlinks0 : LinksInv site originOf origin (initState assets) := by
      intro u ct links hfu hres hcss v hv
      exact absurd hres (by simp [initState, lookupStr])
    have hlinksW : LinksInv site originOf origin
        (wave site originOf origin hostTok (initState assets)) :=
      foldl_preserve site originOf origin hostTok (LinksInv site originOf origin)
        (linksInv_step site originOf origin hostTok) _ _ hlinks0
    obtain ⟨hdone, hlinksF, hgoodF⟩ :=
      crawlLoop_done site originOf origin hostTok U HU (U.length + 1) 0
        (wave site originOf origin hostTok (initState assets)) hW hlinksW
        ⟨initState assets, rfl, Or.inr rfl⟩ (by omega) (Nat.zero_le _)
    have hext : Extends (initState assets).toDownload
        (runCrawl site originOf origin hostTok assets (U.length + 1)).toDownload :=
      extends_trans (wave_stExtends site originOf origin hostTok (initState assets)).1
        (crawlLoop_stExtends site originOf origin hostTok (U.length + 1) 0 _).1
    have hmem : ∀ u : String, Reaches site originOf origin assets u →
        u ∈ (runCrawl site originOf origin hostTok assets (U.length + 1)).toDownload := by
      intro u hr
      induction hr with
      | init w hw => exact extends_subset hext (mem_addUrls.mpr (Or.inr hw))
      | css w v ct links hrw hfw hcss hv ih =>
        have hres := hdone w ih (Hsucc w (hgoodF.2 w ih))
        exact hlinksF w ct links hfw hres hcss v hv
    intro u hr
    exact hdone u (hmem u hr) (Hsucc u (hgoodF.2 u (hmem u hr)))

/-- resolution oracle of the end-to-end scenario site. -/
def e2eOriginOf : String → Option String := fun u =>
  if u = "https://example.test/s.css" ∨ u = "https://example.test/i.png"
      ∨ u = "https://example.test/extra.css" ∨ u = "https://example.test/sprite.png"
  then some "https://example.test" else none

/-- the end-to-end scenario site: a style sheet importing a second style
sheet which references an image, plus a directly referenced image. -/
def e2eSite : Site :=
  ⟨fun u =>
    if u = "https://example.test/s.css" then
      some ("text/css", ["https://example.test/extra.css"])
    else if u = "https://example.test/extra.css" then
      some ("text/css", ["https://example.test/sprite.png"])
    else if u = "https://example.test/i.png" then some ("image/png", [])
    else if u = "https://example.test/sprite.png" then some ("image/png", [])
    else none⟩

/-- the finite universe of the scenario. -/
def e2eU : List String :=
  ["https://example.test/s.css", "https://example.test/i.png",
   "https://example.test/extra.css", "https://example.test/sprite.png"]

/-- the assets collected from the scenario's seed document. -/
def e2eAssets : List String :=
  ["https://example.test/s.css", "https://example.test/i.png"]

/-- C3 (witness): in the end-to-end scenario, sprite.png - reachable only
through two chained style sheets - ends up resolved. -/
theorem C3_witness :
    (lookupStr (runCrawl e2eSite e2eOriginOf "https://example.test" "example_test"
        e2eAssets (e2eU.length + 1)).resolved "https://example.test/sprite.png").isSome
      = true := by
  have T := C3_fixpoint_reachable e2eSite e2eOriginOf "https://example.test" "example_test"
    e2eU e2eAssets (by decide) (by decide) (by decide)
  apply T.2
  apply Reaches.css "https://example.test/extra.css" "https://example.test/sprite.png"
    "text/css" ["https://example.test/sprite.png"]
  · apply Reaches.css "https://example.test/s.css" "https://example.test/extra.css"
      "text/css" ["https://example.test/extra.css"]
    · exact Reaches.init "https://example.test/s.css" (by decide)
    · decide
    · decide
    · decide
  · decide
  · decide
  · decide

end Scrape
